import Mathlib

/-!
# Verification of the SlangProjectCode batch-prompting pipeline

Shallow embedding of the repository's Python modules:

* `src/src/prompts.py`    — `PromptTemplate.expand`, `load_prompts`
* `src/src/client.py`     — `TogetherClient.complete`
* `src/src/runner.py`     — `_is_retryable`, `Runner._call` (tenacity retry),
                            `Runner._process`, `Runner.run`
* `src/src/collector.py`  — `ResponseCollector.save` (append-only JSONL sink)
* `src/visualizer/visualize.py` — `_load_records`, `render`

Text is modelled as `List Char`; JSON values as the inductive `JValue`
(numbers are integers — the claims under study never depend on float
formatting).  Python `dict`s are association lists whose keys are distinct;
dict insertion is modelled by `insertPair`, which updates an existing key in
place, as CPython does.
-/

set_option maxHeartbeats 1000000

deriving instance DecidableEq for Except

/-- JSON value, as produced by Python's `json` module restricted to the shapes
this repository reads and writes (numbers are integers; Python `None` is
`null`). -/
inductive JValue where
  | null : JValue
  | bool (b : Bool) : JValue
  | num (n : Int) : JValue
  | str (s : List Char) : JValue
  | arr (xs : List JValue) : JValue
  | obj (fields : List (List Char × JValue)) : JValue

mutual

/-- Structural equality of JSON values (no deriving handler exists for the
nested inductive, so it is spelled out, together with its two list forms). -/
def JValue.beq : JValue → JValue → Bool
  | .null, .null => true
  | .bool a, .bool b => a == b
  | .num a, .num b => a == b
  | .str a, .str b => a == b
  | .arr a, .arr b => JValue.beqList a b
  | .obj a, .obj b => JValue.beqFields a b
  | _, _ => false

/-- Position-by-position equality of two lists of JSON values. -/
def JValue.beqList : List JValue → List JValue → Bool
  | [], [] => true
  | x :: xs, y :: ys => JValue.beq x y && JValue.beqList xs ys
  | _, _ => false

/-- Equality of two field lists, in names, values and order together. -/
def JValue.beqFields : List (List Char × JValue) → List (List Char × JValue) → Bool
  | [], [] => true
  | (k₁, v₁) :: xs, (k₂, v₂) :: ys =>
      k₁ == k₂ && JValue.beq v₁ v₂ && JValue.beqFields xs ys
  | _, _ => false

end

mutual

theorem JValue.beq_iff_eq : ∀ a b : JValue, JValue.beq a b = true ↔ a = b
  | .null, .null => by simp [JValue.beq]
  | .bool _, .bool _ => by simp [JValue.beq]
  | .num _, .num _ => by simp [JValue.beq]
  | .str _, .str _ => by simp [JValue.beq]
  | .arr x, .arr y => by simp [JValue.beq, JValue.beqList_iff_eq x y]
  | .obj x, .obj y => by simp [JValue.beq, JValue.beqFields_iff_eq x y]
  | .null, .bool _ | .null, .num _ | .null, .str _ | .null, .arr _ | .null, .obj _
  | .bool _, .null | .bool _, .num _ | .bool _, .str _ | .bool _, .arr _ | .bool _, .obj _
  | .num _, .null | .num _, .bool _ | .num _, .str _ | .num _, .arr _ | .num _, .obj _
  | .str _, .null | .str _, .bool _ | .str _, .num _ | .str _, .arr _ | .str _, .obj _
  | .arr _, .null | .arr _, .bool _ | .arr _, .num _ | .arr _, .str _ | .arr _, .obj _
  | .obj _, .null | .obj _, .bool _ | .obj _, .num _ | .obj _, .str _ | .obj _, .arr _ => by
      simp [JValue.beq]

theorem JValue.beqList_iff_eq : ∀ xs ys : List JValue, JValue.beqList xs ys = true ↔ xs = ys
  | [], [] => by simp [JValue.beqList]
  | x :: xs, y :: ys => by
      simp [JValue.beqList, JValue.beq_iff_eq x y, JValue.beqList_iff_eq xs ys]
  | [], _ :: _ => by simp [JValue.beqList]
  | _ :: _, [] => by simp [JValue.beqList]

theorem JValue.beqFields_iff_eq :
    ∀ xs ys : List (List Char × JValue), JValue.beqFields xs ys = true ↔ xs = ys
  | [], [] => by simp [JValue.beqFields]
  | (k₁, v₁) :: xs, (k₂, v₂) :: ys => by
      simp [JValue.beqFields, JValue.beq_iff_eq v₁ v₂, JValue.beqFields_iff_eq xs ys,
        Prod.ext_iff, and_assoc]
  | [], _ :: _ => by simp [JValue.beqFields]
  | _ :: _, [] => by simp [JValue.beqFields]

end

instance : DecidableEq JValue := fun a b =>
  decidable_of_iff (JValue.beq a b = true) (JValue.beq_iff_eq a b)

/-- Python truthiness (`bool(x)`) for the JSON shapes above: `None`, `False`,
`0`, empty string, empty list and empty dict are falsy. -/
def JValue.truthy : JValue → Bool
  | .null => false
  | .bool b => b
  | .num n => n != 0
  | .str s => !s.isEmpty
  | .arr xs => !xs.isEmpty
  | .obj fs => !fs.isEmpty

/-- Shorthand: the characters of a string literal. -/
def strOf (s : String) : List Char := s.toList

/-- The opening-brace character. -/
def lbrace : Char := Char.ofNat 123

/-- The closing-brace character. -/
def rbrace : Char := Char.ofNat 125

/-- Whitespace characters skipped between JSONL records (`" \t\n\r"`), as in
`load_prompts` and `_load_records`. -/
def isJsonWs (c : Char) : Bool :=
  c = ' ' || c = '\t' || c = '\n' || c = '\r'

example : JValue.truthy (.obj []) = false := by decide
example : JValue.truthy (.str (strOf "x")) = true := by decide

/-! ## Decimal rendering of integers (Python `str(int)` and `f"…{idx}…"`) -/

/-- The decimal digit character for `d < 10`. -/
def digitChar (d : Nat) : Char := (strOf "0123456789").getD d '0'

/-- Decimal digits of a natural number, most significant first (fuelled so the
definition is structural and evaluates inside the kernel; `fuel = n + 1` always
suffices because the argument shrinks by a factor of ten each step). -/
def natReprAux : Nat → Nat → List Char
  | 0, _ => []
  | fuel + 1, n =>
      if n < 10 then [digitChar n] else natReprAux fuel (n / 10) ++ [digitChar (n % 10)]

/-- Decimal digits of a natural number, as Python's `str` renders a
non-negative `int`. -/
def natRepr (n : Nat) : List Char := natReprAux (n + 1) n

/-- Python `str(int)`: an optional minus sign before the digits. -/
def intRepr : Int → List Char
  | .ofNat n => natRepr n
  | .negSucc m => '-' :: natRepr (m + 1)

/-- Numeric value of a decimal digit character. -/
def decDigit (c : Char) : Nat := c.toNat - 48

/-- Value of a most-significant-first decimal digit string. -/
def decodeDec (cs : List Char) : Nat := cs.foldl (fun a c => a * 10 + decDigit c) 0

theorem decDigit_digitChar (d : Nat) (h : d < 10) : decDigit (digitChar d) = d := by
  interval_cases d <;> decide

theorem decodeDec_append_digit (cs : List Char) (c : Char) :
    decodeDec (cs ++ [c]) = 10 * decodeDec cs + decDigit c := by
  simp [decodeDec, List.foldl_append, Nat.mul_comm]

theorem decodeDec_natReprAux (fuel n : Nat) (h : n < fuel) :
    decodeDec (natReprAux fuel n) = n := by
  induction fuel generalizing n with
  | zero => omega
  | succ fuel ih =>
    rw [natReprAux]
    split
    · simp [decodeDec, decDigit_digitChar n (by omega)]
    · rw [decodeDec_append_digit, ih (n / 10) (by omega),
        decDigit_digitChar (n % 10) (Nat.mod_lt _ (by omega))]
      omega

theorem decodeDec_natRepr (n : Nat) : decodeDec (natRepr n) = n :=
  decodeDec_natReprAux (n + 1) n (by omega)

theorem natRepr_injective {m n : Nat} (h : natRepr m = natRepr n) : m = n := by
  rw [← decodeDec_natRepr m, h, decodeDec_natRepr]

theorem digitChar_isDigit (d : Nat) (h : d < 10) : (digitChar d).isDigit = true := by
  interval_cases d <;> decide

theorem natReprAux_all_digits (fuel n : Nat) (h : n < fuel) :
    ∀ c ∈ natReprAux fuel n, c.isDigit = true := by
  induction fuel generalizing n with
  | zero => omega
  | succ fuel ih =>
    rw [natReprAux]
    split
    · simpa using digitChar_isDigit n (by omega)
    · intro c hc
      rcases List.mem_append.mp hc with h1 | h2
      · exact ih (n / 10) (by omega) c h1
      · simp only [List.mem_singleton] at h2
        subst h2
        exact digitChar_isDigit (n % 10) (Nat.mod_lt _ (by omega))

theorem natRepr_all_digits (n : Nat) : ∀ c ∈ natRepr n, c.isDigit = true :=
  natReprAux_all_digits (n + 1) n (by omega)

theorem natRepr_ne_nil (n : Nat) : natRepr n ≠ [] := by
  rw [natRepr, natReprAux]; split <;> simp

/-! ## Python `str()` / `repr()` of values interpolated into templates

`str.format_map` substitutes `str(value)` for a placeholder.  The claims under
study never inspect the rendered text itself, but `expand` must render it, so
Python's `str`/`repr` are carried through (string escaping inside `repr` of a
nested string is elided — no claim touches it). -/

/-- A single-quote character, as Python `repr` wraps strings. -/
def squote : Char := Char.ofNat 39

mutual

def pyRepr : JValue → List Char
  | .null => strOf "None"
  | .bool true => strOf "True"
  | .bool false => strOf "False"
  | .num n => intRepr n
  | .str s => squote :: (s ++ [squote])
  | .arr xs => '[' :: (pyReprList xs ++ [']'])
  | .obj fs => lbrace :: (pyReprFields fs ++ [rbrace])

def pyReprList : List JValue → List Char
  | [] => []
  | [x] => pyRepr x
  | x :: y :: ys => pyRepr x ++ strOf ", " ++ pyReprList (y :: ys)

def pyReprFields : List (List Char × JValue) → List Char
  | [] => []
  | [(k, v)] => squote :: (k ++ squote :: ':' :: ' ' :: pyRepr v)
  | (k, v) :: f :: fs =>
      (squote :: (k ++ squote :: ':' :: ' ' :: pyRepr v)) ++ strOf ", " ++ pyReprFields (f :: fs)

end

/-- Python `str(value)`: identity on strings, `repr`-style otherwise. -/
def pyStr : JValue → List Char
  | .str s => s
  | .null => pyRepr .null
  | .bool b => pyRepr (.bool b)
  | .num n => pyRepr (.num n)
  | .arr xs => pyRepr (.arr xs)
  | .obj fs => pyRepr (.obj fs)

example : natRepr 120 = strOf "120" := by decide
example : intRepr (-45) = strOf "-45" := by decide
example : pyStr (.num 7) = strOf "7" := by decide

/-! ## `str.format_map` (named-placeholder fragment)

`src/src/prompts.py` renders templates with `str.format_map(ctx)`.  The
embedding covers the fragment the templates use: plain `{name}` fields, the
`{{`/`}}` escapes, `KeyError` on a missing name.  (Conversion/format specs
such as `{x!r}` or `{x:>8}` do not occur in this repository's templates.) -/

inductive FmtErr where
  | keyError (key : List Char)
  | valueError (msg : List Char)
deriving DecidableEq

/-- Split at the first occurrence of `stop`: the text before it and the text
after it, or `none` when `stop` does not occur. -/
def splitAtChar (stop : Char) : List Char → Option (List Char × List Char)
  | [] => none
  | c :: rest =>
      if c = stop then some ([], rest)
      else (splitAtChar stop rest).map (fun p => (c :: p.1, p.2))

/-- `str.format_map`, fuelled so the recursion is structural (every step
consumes at least one character, so `fuel = length + 1` never runs out). -/
def formatMapAux (ctx : List (List Char × JValue)) : Nat → List Char → Except FmtErr (List Char)
  | 0, _ => .error (.valueError (strOf "fuel"))
  | fuel + 1, cs =>
    match cs with
    | [] => .ok []
    | c :: rest =>
      if c = lbrace then
        match rest with
        | c2 :: rest2 =>
          if c2 = lbrace then
            (formatMapAux ctx fuel rest2).map (fun t => lbrace :: t)
          else
            match splitAtChar rbrace rest with
            | none => .error (.valueError (strOf "expected closing brace before end of string"))
            | some (name, after) =>
              match List.lookup name ctx with
              | none => .error (.keyError name)
              | some v => (formatMapAux ctx fuel after).map (fun t => pyStr v ++ t)
        | [] => .error (.valueError (strOf "expected closing brace before end of string"))
      else if c = rbrace then
        match rest with
        | c2 :: rest2 =>
          if c2 = rbrace then (formatMapAux ctx fuel rest2).map (fun t => rbrace :: t)
          else .error (.valueError (strOf "single closing brace encountered in format string"))
        | [] => .error (.valueError (strOf "single closing brace encountered in format string"))
      else (formatMapAux ctx fuel rest).map (fun t => c :: t)

def formatMap (cs : List Char) (ctx : List (List Char × JValue)) : Except FmtErr (List Char) :=
  formatMapAux ctx (cs.length + 1) cs

/-! ## `PromptTemplate` and `expand` (src/src/prompts.py) -/

/-- `PromptTemplate` dataclass.  `variables` is a Python dict (association
list, keys distinct in any dict the interpreter can build); `logprobs` is
`int | None`. -/
structure PromptTemplate where
  id : List Char
  system : List Char
  user : List Char
  /-- The `variables` dict of the dataclass (`variables` is a reserved word
  in Lean, hence the shortened field name). -/
  vars : List (List Char × JValue) := []
  logprobs : Option Int := none
deriving DecidableEq

/-- `isinstance(v, list)`. -/
def isListValue : JValue → Bool
  | .arr _ => true
  | _ => false

/-- The elements of a list value (only ever applied to values that satisfy
`isListValue`). -/
def jListElems : JValue → List JValue
  | .arr xs => xs
  | _ => []

/-- `list_vars = {k: v for k, v in self.variables.items() if isinstance(v, list)}`
(dict comprehensions preserve iteration order). -/
def PromptTemplate.list_vars (t : PromptTemplate) : List (List Char × JValue) :=
  t.vars.filter (fun kv => isListValue kv.2)

/-- `scalar_vars = {k: v for k, v in self.variables.items() if not isinstance(v, list)}`. -/
def PromptTemplate.scalar_vars (t : PromptTemplate) : List (List Char × JValue) :=
  t.vars.filter (fun kv => !isListValue kv.2)

/-- One `(variables_used, rendered_system, rendered_user)` tuple of `expand`. -/
structure Variant where
  ctx : List (List Char × JValue)
  systemText : List Char
  userText : List Char
deriving DecidableEq

/-- `itertools.product(*pools)`: the rightmost pool varies fastest, like
nested `for` loops with the first pool outermost. -/
def pyProduct : List (List α) → List (List α)
  | [] => [[]]
  | pool :: pools => pool.flatMap (fun x => (pyProduct pools).map (fun combo => x :: combo))

/-- A `for` loop appending `f x` for each `x`, where `f` can raise: the
first error aborts the loop (Python exception propagation). -/
def mapME (f : α → Except ε β) : List α → Except ε (List β)
  | [] => .ok []
  | x :: xs =>
    match f x with
    | .error e => .error e
    | .ok y =>
      match mapME f xs with
      | .error e => .error e
      | .ok ys => .ok (y :: ys)

/-- Render the system and user templates from a context, producing one
variant (the tuple appended per combination in `expand`). -/
def PromptTemplate.render (t : PromptTemplate) (ctx : List (List Char × JValue)) :
    Except FmtErr Variant :=
  match formatMap t.system ctx with
  | .error e => .error e
  | .ok s =>
    match formatMap t.user ctx with
    | .error e => .error e
    | .ok u => .ok ⟨ctx, s, u⟩

/-- `PromptTemplate.expand`: partition the variables into list-valued and
scalar entries; with no list entry render once from the scalar context, else
render one variant per element of the cartesian product of the list values,
the context merging the scalars with `dict(zip(keys, combo))` (`keys` and the
scalar keys are disjoint in a Python dict, so the merge is the
concatenation). -/
def PromptTemplate.expand (t : PromptTemplate) : Except FmtErr (List Variant) :=
  let list_vars := t.list_vars
  let scalar_vars := t.scalar_vars
  if list_vars.isEmpty then
    match t.render scalar_vars with
    | .error e => .error e
    | .ok v => .ok [v]
  else
    let keys := list_vars.map Prod.fst
    mapME
      (fun combo => t.render (scalar_vars ++ keys.zip combo))
      (pyProduct (list_vars.map (fun kv => jListElems kv.2)))

/-! ### Auxiliary lemmas for `expand` -/

theorem mapME_ok_length (f : α → Except ε β) :
    ∀ {xs : List α} {ys : List β}, mapME f xs = .ok ys → ys.length = xs.length := by
  intro xs
  induction xs with
  | nil =>
    intro ys h
    simp only [mapME] at h
    cases h
    rfl
  | cons x xs ih =>
    intro ys h
    cases hf : f x with
    | error e => simp [mapME, hf] at h
    | ok y =>
      cases hm : mapME f xs with
      | error e => simp [mapME, hf, hm] at h
      | ok l =>
        simp only [mapME, hf, hm] at h
        cases h
        simp [ih hm]

theorem mapME_ok_map_eq {f : α → Except ε β} {g : β → γ} {gf : α → γ}
    (hfg : ∀ x y, f x = .ok y → g y = gf x) :
    ∀ {xs : List α} {ys : List β}, mapME f xs = .ok ys → ys.map g = xs.map gf := by
  intro xs
  induction xs with
  | nil =>
    intro ys h
    simp only [mapME] at h
    cases h
    rfl
  | cons x xs ih =>
    intro ys h
    cases hf : f x with
    | error e => simp [mapME, hf] at h
    | ok y =>
      cases hm : mapME f xs with
      | error e => simp [mapME, hf, hm] at h
      | ok l =>
        simp only [mapME, hf, hm] at h
        cases h
        simp [hfg x y hf, ih hm]

theorem length_pyProduct : ∀ pools : List (List α),
    (pyProduct pools).length = (pools.map List.length).prod := by
  intro pools
  induction pools with
  | nil => rfl
  | cons pool pools ih =>
    rw [pyProduct, List.length_flatMap]
    simp only [Function.comp_def, List.length_map, List.map_const', List.sum_replicate,
      smul_eq_mul, ih, List.map_cons, List.prod_cons]

theorem mem_pyProduct : ∀ (pools : List (List α)) (combo : List α),
    combo ∈ pyProduct pools ↔ List.Forall₂ (fun x pool => x ∈ pool) combo pools := by
  intro pools
  induction pools with
  | nil =>
    intro combo
    simp [pyProduct, List.forall₂_nil_right_iff]
  | cons pool pools ih =>
    intro combo
    simp only [pyProduct, List.mem_flatMap, List.mem_map, List.forall₂_cons_right_iff, ih]
    constructor
    · rintro ⟨x, hx, c, hc, rfl⟩
      exact ⟨x, c, hx, hc, rfl⟩
    · rintro ⟨x, c, hx, hc, rfl⟩
      exact ⟨x, hx, c, hc, rfl⟩

theorem nodup_pyProduct : ∀ pools : List (List α), (∀ pool ∈ pools, pool.Nodup) →
    (pyProduct pools).Nodup := by
  intro pools
  induction pools with
  | nil => intro _; simp [pyProduct]
  | cons pool pools ih =>
    intro h
    rw [pyProduct, List.nodup_flatMap]
    refine ⟨fun x _ => ?_, ?_⟩
    · exact (ih (fun p hp => h p (List.mem_cons_of_mem _ hp))).map
        (fun a b hab => (List.cons.injEq _ _ _ _ ▸ hab).2)
    · have hp : pool.Nodup := h pool (List.mem_cons_self _ _)
      refine hp.imp ?_
      intro a b hab z hz1 hz2
      obtain ⟨c1, _, rfl⟩ := List.mem_map.mp hz1
      obtain ⟨c2, _, he⟩ := List.mem_map.mp hz2
      exact hab (List.cons.injEq _ _ _ _ ▸ he.symm).1

theorem lookup_append_left_nmem {α β : Type _} [BEq α] [LawfulBEq α] (k : α) :
    ∀ (l1 l2 : List (α × β)), k ∉ l1.map Prod.fst →
      List.lookup k (l1 ++ l2) = List.lookup k l2 := by
  intro l1
  induction l1 with
  | nil => intro l2 _; rfl
  | cons p l1 ih =>
    intro l2 h
    obtain ⟨pk, pv⟩ := p
    simp only [List.cons_append, List.lookup]
    have hne : (k == pk) = false := by
      rw [beq_eq_false_iff_ne]
      rintro rfl
      exact h (by simp)
    rw [hne]
    exact ih l2 (fun hm => h (by simpa using Or.inr (by simpa using hm)))

theorem lookup_zip_exists_ne {α β : Type _} [BEq α] [LawfulBEq α] :
    ∀ (keys : List α) (c1 c2 : List β),
      keys.Nodup → c1.length = keys.length → c2.length = keys.length → c1 ≠ c2 →
      ∃ k ∈ keys, List.lookup k (keys.zip c1) ≠ List.lookup k (keys.zip c2) := by
  intro keys
  induction keys with
  | nil =>
    intro c1 c2 _ h1 h2 hne
    cases c1 with
    | nil =>
      cases c2 with
      | nil => exact absurd rfl hne
      | cons _ _ => simp at h2
    | cons _ _ => simp at h1
  | cons k ks ih =>
    intro c1 c2 hnd h1 h2 hne
    cases c1 with
    | nil => simp at h1
    | cons x1 r1 =>
      cases c2 with
      | nil => simp at h2
      | cons x2 r2 =>
        by_cases hx : x1 = x2
        · subst hx
          have hr : r1 ≠ r2 := fun hh => hne (by rw [hh])
          obtain ⟨k', hk', hne'⟩ := ih r1 r2 (List.nodup_cons.mp hnd).2
            (by simpa using h1) (by simpa using h2) hr
          refine ⟨k', List.mem_cons_of_mem _ hk', ?_⟩
          have hkk : (k' == k) = false := by
            rw [beq_eq_false_iff_ne]
            rintro rfl
            exact (List.nodup_cons.mp hnd).1 hk'
          simpa [List.zip_cons_cons, List.lookup, hkk] using hne'
        · refine ⟨k, List.mem_cons_self _ _, ?_⟩
          simp [List.zip_cons_cons, List.lookup, hx]

theorem list_vars_key_not_scalar {t : PromptTemplate}
    (hk : (t.vars.map Prod.fst).Nodup) {k : List Char}
    (h1 : k ∈ t.list_vars.map Prod.fst) : k ∉ t.scalar_vars.map Prod.fst := by
  intro h2
  obtain ⟨kv1, hkv1, he1⟩ := List.mem_map.mp h1
  obtain ⟨kv2, hkv2, he2⟩ := List.mem_map.mp h2
  have m1 : kv1 ∈ t.vars := List.mem_of_mem_filter hkv1
  have m2 : kv2 ∈ t.vars := List.mem_of_mem_filter hkv2
  have p1 := List.of_mem_filter hkv1
  have p2 := List.of_mem_filter hkv2
  have heq : kv1 = kv2 := List.inj_on_of_nodup_map hk m1 m2 (by rw [he1, he2])
  subst heq
  simp [p1] at p2

theorem list_vars_keys_nodup {t : PromptTemplate} (hk : (t.vars.map Prod.fst).Nodup) :
    (t.list_vars.map Prod.fst).Nodup :=
  List.Nodup.sublist (List.Sublist.map Prod.fst (List.filter_sublist t.vars)) hk

theorem render_ok_ctx {t : PromptTemplate} {ctx : List (List Char × JValue)} {v : Variant}
    (h : t.render ctx = .ok v) : v.ctx = ctx := by
  rw [PromptTemplate.render] at h
  split at h
  · exact absurd h (by simp)
  · split at h
    · exact absurd h (by simp)
    · cases h
      rfl

/-- C2 (amended): whenever `expand` succeeds it returns exactly the product of
the lengths of the template's list-valued bindings many variants (exactly 1
when there are none); provided every list-valued binding is duplicate-free,
the variable-assignment dictionaries across the variants are pairwise
distinct as dictionaries (some key looks up differently) and they cover the
full cartesian product of the list values merged over the scalar bindings. -/
theorem c2_expand_cartesian (t : PromptTemplate) (vs : List Variant)
    (hk : (t.vars.map Prod.fst).Nodup)
    (hnd : ∀ kv ∈ t.list_vars, (jListElems kv.2).Nodup)
    (h : t.expand = .ok vs) :
    vs.length = (t.list_vars.map (fun kv => (jListElems kv.2).length)).prod
    ∧ (vs.map Variant.ctx).Pairwise (fun d1 d2 => ∃ k, List.lookup k d1 ≠ List.lookup k d2)
    ∧ (∀ combo : List JValue,
        List.Forall₂ (fun v kv => v ∈ jListElems kv.2) combo t.list_vars →
        (t.scalar_vars ++ (t.list_vars.map Prod.fst).zip combo) ∈ vs.map Variant.ctx) := by
  simp only [PromptTemplate.expand] at h
  by_cases hemp : t.list_vars.isEmpty
  · have hlv : t.list_vars = [] := List.isEmpty_iff.mp hemp
    rw [if_pos hemp] at h
    cases hr : t.render t.scalar_vars with
    | error e => rw [hr] at h; exact absurd h (by simp)
    | ok v =>
      rw [hr] at h
      cases h
      have hc : v.ctx = t.scalar_vars := render_ok_ctx hr
      refine ⟨by simp [hlv], by simp, ?_⟩
      intro combo hco
      rw [hlv] at hco
      have hcn : combo = [] := List.forall₂_nil_right_iff.mp hco
      subst hcn
      simp [hlv, hc]
  · rw [if_neg hemp] at h
    have hctx : ∀ (combo : List JValue) (v : Variant),
        t.render (t.scalar_vars ++ (t.list_vars.map Prod.fst).zip combo) = .ok v →
        Variant.ctx v = t.scalar_vars ++ (t.list_vars.map Prod.fst).zip combo :=
      fun _ _ hr => render_ok_ctx hr
    have hmap := mapME_ok_map_eq hctx h
    have hlen := mapME_ok_length _ h
    have hkeyslen : (t.list_vars.map (fun kv => jListElems kv.2)).length =
        (t.list_vars.map Prod.fst).length := by simp
    refine ⟨?_, ?_, ?_⟩
    · rw [hlen, length_pyProduct, List.map_map]
      rfl
    · rw [hmap, List.pairwise_map]
      have hnd' : (pyProduct (t.list_vars.map (fun kv => jListElems kv.2))).Nodup := by
        apply nodup_pyProduct
        intro pool hp
        obtain ⟨kv, hkv, rfl⟩ := List.mem_map.mp hp
        exact hnd kv hkv
      apply List.Pairwise.imp_of_mem ?_ hnd'
      intro c1 c2 hm1 hm2 hne
      have hf1 := (mem_pyProduct _ c1).mp hm1
      have hf2 := (mem_pyProduct _ c2).mp hm2
      have hl1 : c1.length = (t.list_vars.map Prod.fst).length := by
        rw [hf1.length_eq]; simp
      have hl2 : c2.length = (t.list_vars.map Prod.fst).length := by
        rw [hf2.length_eq]; simp
      obtain ⟨k, hk', hne'⟩ := lookup_zip_exists_ne (t.list_vars.map Prod.fst) c1 c2
        (list_vars_keys_nodup hk) hl1 hl2 hne
      refine ⟨k, ?_⟩
      have hnm : k ∉ t.scalar_vars.map Prod.fst := list_vars_key_not_scalar hk hk'
      rw [lookup_append_left_nmem k _ _ hnm, lookup_append_left_nmem k _ _ hnm]
      exact hne'
    · intro combo hco
      rw [hmap]
      apply List.mem_map_of_mem
      apply (mem_pyProduct _ combo).mpr
      exact List.forall₂_map_right_iff.mpr hco

/-- A template whose single list-valued variable repeats one value. -/
def c2Template : PromptTemplate :=
  { id := strOf "t0", system := strOf "sys", user := strOf "usr",
    vars := [(strOf "x", .arr [.str (strOf "a"), .str (strOf "a")])] }

/-- C2 counterexample: on a template whose list variable holds the same value
twice, `expand` produces two variants with the *same* variable-assignment
dictionary, so the assignments are not pairwise distinct as the claim
states. -/
theorem c2_counterexample :
    c2Template.expand =
      .ok [⟨[(strOf "x", .str (strOf "a"))], strOf "sys", strOf "usr"⟩,
           ⟨[(strOf "x", .str (strOf "a"))], strOf "sys", strOf "usr"⟩]
    ∧ ¬ ([⟨[(strOf "x", .str (strOf "a"))], strOf "sys", strOf "usr"⟩,
          (⟨[(strOf "x", .str (strOf "a"))], strOf "sys", strOf "usr"⟩ : Variant)].map
            Variant.ctx).Nodup := by
  exact ⟨by decide, by decide⟩

/-- A duplicate-free two-element list variable for the witness. -/
def c2WitnessTemplate : PromptTemplate :=
  { id := strOf "t1", system := strOf "a", user := strOf "b",
    vars := [(strOf "x", .arr [.num 1, .num 2])] }

theorem c2_expand_cartesian_witness :
    ([⟨[(strOf "x", .num 1)], strOf "a", strOf "b"⟩,
      ⟨[(strOf "x", .num 2)], strOf "a", strOf "b"⟩] : List Variant).length =
      (c2WitnessTemplate.list_vars.map (fun kv => (jListElems kv.2).length)).prod :=
  (c2_expand_cartesian c2WitnessTemplate _ (by decide) (by decide) (by decide)).1

/-- The variant count of a successful expansion, shared by the template and
runner theorems: `expand` returns one variant per element of the cartesian
product of the list-valued bindings. -/
theorem expand_ok_length {t : PromptTemplate} {vs : List Variant} (h : t.expand = .ok vs) :
    vs.length = (t.list_vars.map (fun kv => (jListElems kv.2).length)).prod := by
  simp only [PromptTemplate.expand] at h
  by_cases hemp : t.list_vars.isEmpty
  · have hlv : t.list_vars = [] := List.isEmpty_iff.mp hemp
    rw [if_pos hemp] at h
    cases hr : t.render t.scalar_vars with
    | error e => rw [hr] at h; exact absurd h (by simp)
    | ok v =>
      rw [hr] at h
      cases h
      simp [hlv]
  · rw [if_neg hemp] at h
    rw [mapME_ok_length _ h, length_pyProduct, List.map_map]
    rfl

/-! ## `TogetherClient.complete` (src/src/client.py) -/

structure ApiUsage where
  prompt_tokens : Int
  completion_tokens : Int
  total_tokens : Int
deriving DecidableEq

structure ApiMessage where
  content : JValue
deriving DecidableEq

/-- One entry of `response.choices` as the Together SDK returns it: the
message, the finish reason and — when the request asked for them — the
per-token log-probability payload. -/
structure ApiChoice where
  message : ApiMessage
  finish_reason : JValue
  logprobs : JValue
deriving DecidableEq

structure ApiResponse where
  choices : List ApiChoice
  model : List Char
  usage : ApiUsage
deriving DecidableEq

/-- `TogetherClient.complete`: `choice = response.choices[0]` (`none` models
the `IndexError` when `choices` is empty); the returned dict is built from
`text`, `model`, `finish_reason` and `usage` only — the SDK's `logprobs`
payload is *not* copied into the result. -/
def TogetherClient.complete (resp : ApiResponse) : Option (List (List Char × JValue)) :=
  match resp.choices with
  | [] => none
  | choice :: _ =>
    some [
      (strOf "text", choice.message.content),
      (strOf "model", .str resp.model),
      (strOf "finish_reason", choice.finish_reason),
      (strOf "usage", .obj [
        (strOf "prompt_tokens", .num resp.usage.prompt_tokens),
        (strOf "completion_tokens", .num resp.usage.completion_tokens),
        (strOf "total_tokens", .num resp.usage.total_tokens)])]

/-! ## `Runner` (src/src/runner.py) -/

/-- A raised exception as `_is_retryable` inspects it: the optional
`status_code` and `status` attributes. -/
structure PyExc where
  status_code : Option Int := none
  status : Option Int := none
deriving DecidableEq

def _RETRYABLE_STATUS : List Int := [429, 500, 502, 503, 504]

/-- `_is_retryable`: `status = getattr(exc, "status_code", None) or
getattr(exc, "status", None)` — Python `or` falls through when the left side
is falsy (`None` or `0`) — then membership in `_RETRYABLE_STATUS`. -/
def _is_retryable (exc : PyExc) : Bool :=
  let status :=
    match exc.status_code with
    | some v => if v = 0 then exc.status else some v
    | none => exc.status
  match status with
  | some v => _RETRYABLE_STATUS.contains v
  | none => false

/-- Outcome of one underlying call of `TogetherClient.complete` as the retry
wrapper sees it: a result dict, or a raised exception. -/
inductive CallOutcome where
  | ok (result : List (List Char × JValue))
  | exc (e : PyExc)
deriving DecidableEq

/-- The tenacity decorator on `Runner._call`:
`retry_if_exception(_is_retryable)`, `stop_after_attempt(3)`, `reraise=True`.
`oracle n` is the outcome of the `n`-th underlying call (0-based);
`remaining` is how many further attempts the stop condition still allows
after the current one.  Returns the total number of attempts made and the
final outcome (`wait_exponential` changes only timing, which the embedding
does not model). -/
def tenacityCall (oracle : Nat → CallOutcome) : Nat → Nat → Nat × CallOutcome
  | start, 0 => (start + 1, oracle start)
  | start, remaining + 1 =>
    match oracle start with
    | .ok r => (start + 1, .ok r)
    | .exc e =>
      if _is_retryable e then tenacityCall oracle (start + 1) remaining
      else (start + 1, .exc e)

/-- `Runner._call`: at most 3 attempts in total. -/
def Runner._call (oracle : Nat → CallOutcome) : Nat × CallOutcome :=
  tenacityCall oracle 0 2

/-- Python `dict.get(key)`: `None` when the key is absent (the result dicts
have pairwise-distinct keys, so first-match lookup is dict lookup). -/
def dictGet (d : List (List Char × JValue)) (k : List Char) : JValue :=
  (List.lookup k d).getD .null

/-- `logger.error("Failed model=%s prompt=%s: %s", model, prompt_id, exc)`:
one log line carrying the model and the prompt identifier. -/
structure LogEntry where
  model : List Char
  promptId : List Char
deriving DecidableEq

/-- `Runner._process`: call `_call`; on any exception log one error and write
nothing; on success build the `record` dict — `response` holds the result
text only when no log-probability depth was supplied, `logprobs` holds
`result.get("logprobs")` only when one was — and save it.  Returns the saved
record (if any) and the error log lines. -/
def Runner._process (runId model promptId : List Char) (logprobs : Option Int)
    (ctx : List (List Char × JValue)) (systemText userText : List Char)
    (timestamp : List Char) (oracle : Nat → CallOutcome) :
    Option JValue × List LogEntry :=
  match (Runner._call oracle).2 with
  | .exc _ => (none, [⟨model, promptId⟩])
  | .ok result =>
    (some (.obj [
      (strOf "run_id", .str runId),
      (strOf "model", .str model),
      (strOf "prompt_id", .str promptId),
      (strOf "variables", .obj ctx),
      (strOf "prompt_text", .str userText),
      (strOf "system_text", .str systemText),
      (strOf "response", if logprobs = none then dictGet result (strOf "text") else .null),
      (strOf "logprobs", if logprobs = none then .null else dictGet result (strOf "logprobs")),
      (strOf "finish_reason", dictGet result (strOf "finish_reason")),
      (strOf "usage", dictGet result (strOf "usage")),
      (strOf "timestamp", .str timestamp)]), [])

/-- One element of the `expanded` list of `Runner.run`:
`(prompt.id, prompt.logprobs, variables, system_text, user_text)`. -/
structure Expanded where
  promptId : List Char
  logprobs : Option Int
  ctx : List (List Char × JValue)
  systemText : List Char
  userText : List Char
deriving DecidableEq

/-- One template's contribution to the `expanded` comprehension of
`Runner.run`: its variants tagged with its id and log-probability depth. -/
def expandEntry (p : PromptTemplate) : Except FmtErr (List Expanded) :=
  match p.expand with
  | .error e => .error e
  | .ok vs => .ok (vs.map (fun v =>
      (⟨p.id, p.logprobs, v.ctx, v.systemText, v.userText⟩ : Expanded)))

/-- The `expanded` comprehension of `Runner.run`: every template's variants
in template order (an expansion error in any template propagates, since the
comprehension runs before the request loop). -/
def runExpanded (prompts : List PromptTemplate) : Except FmtErr (List Expanded) :=
  match mapME expandEntry prompts with
  | .error e => .error e
  | .ok groups => .ok groups.flatten

/-- `combos = [(model, *exp) for model in self.models for exp in expanded]`:
models are the outer loop. -/
def runCombos (models : List (List Char)) (expanded : List Expanded) :
    List (List Char × Expanded) :=
  models.flatMap (fun m => expanded.map (fun e => (m, e)))

/-- `Runner.run`: expand all prompts, then process every (model, variant)
combo in order; `oracle i` gives the underlying call outcomes for the `i`-th
combo.  Returns one `(saved record?, error logs)` pair per combo — the
`try/except` in `_process` is what makes the loop total. -/
def Runner.run (runId : List Char) (models : List (List Char))
    (prompts : List PromptTemplate) (timestamp : List Char)
    (oracle : Nat → Nat → CallOutcome) :
    Except FmtErr (List (Option JValue × List LogEntry)) :=
  match runExpanded prompts with
  | .error e => .error e
  | .ok expanded =>
    .ok ((runCombos models expanded).mapIdx
      (fun i c => Runner._process runId c.1 c.2.promptId c.2.logprobs c.2.ctx
        c.2.systemText c.2.userText timestamp (oracle i)))

/-- `r.get(key)` on a JSON object, `null` otherwise/absent (total helper used
to state record-field properties). -/
def objGet (r : JValue) (k : List Char) : JValue :=
  match r with
  | .obj fs => (List.lookup k fs).getD .null
  | _ => .null

/-- A successful API response whose first choice carries a non-null
log-probability payload. -/
def c1Response : ApiResponse :=
  { choices := [{
      message := { content := .str (strOf "hi") },
      finish_reason := .str (strOf "stop"),
      logprobs := .obj [(strOf "content",
        .arr [.obj [(strOf "token", .str (strOf "hi")), (strOf "logprob", .num (-1))]])] }],
    model := strOf "m",
    usage := { prompt_tokens := 1, completion_tokens := 1, total_tokens := 2 } }

/-- The dict `TogetherClient.complete` returns for `c1Response`: no
`logprobs` key. -/
def c1Result : List (List Char × JValue) :=
  [(strOf "text", .str (strOf "hi")),
   (strOf "model", .str (strOf "m")),
   (strOf "finish_reason", .str (strOf "stop")),
   (strOf "usage", .obj [
     (strOf "prompt_tokens", .num 1),
     (strOf "completion_tokens", .num 1),
     (strOf "total_tokens", .num 2)])]

/-- The record `Runner._process` saves for `c1Result` with depth 5. -/
def c1Record : JValue :=
  .obj [
    (strOf "run_id", .str (strOf "run")),
    (strOf "model", .str (strOf "m")),
    (strOf "prompt_id", .str (strOf "p")),
    (strOf "variables", .obj []),
    (strOf "prompt_text", .str (strOf "u")),
    (strOf "system_text", .str (strOf "s")),
    (strOf "response", .null),
    (strOf "logprobs", .null),
    (strOf "finish_reason", .str (strOf "stop")),
    (strOf "usage", .obj [
      (strOf "prompt_tokens", .num 1),
      (strOf "completion_tokens", .num 1),
      (strOf "total_tokens", .num 2)]),
    (strOf "timestamp", .str (strOf "ts"))]

/-- C1: on a request whose template supplied a log-probability depth and whose
completion succeeds with a non-null SDK log-probability payload, the saved
`ResponseRecord` has `response = null` *and* `logprobs = null`: the payload is
dropped because `TogetherClient.complete` never copies `choice.logprobs` into
its result, so `result.get("logprobs")` in `Runner._process` is always
`None` — neither field of the record is populated, where the claim requires
exactly the log-probability field to be. -/
theorem c1_logprobs_dropped :
    c1Response.choices.map ApiChoice.logprobs ≠ [JValue.null]
    ∧ TogetherClient.complete c1Response = some c1Result
    ∧ Runner._process (strOf "run") (strOf "m") (strOf "p") (some 5) [] (strOf "s")
        (strOf "u") (strOf "ts") (fun _ => .ok c1Result) = (some c1Record, [])
    ∧ objGet c1Record (strOf "logprobs") = .null
    ∧ objGet c1Record (strOf "response") = .null := by
  refine ⟨by decide, by decide, by decide, by decide, by decide⟩

/-- C3: retry policy of `Runner._call`/`Runner._process`: at most 3 attempts;
every non-final attempt was a failure with a retryable status; a third
attempt happens exactly when the first two attempts both failed retryably; a
non-retryable first failure ends the matter after one attempt; whenever the
final outcome is a failure the Runner writes no record and logs exactly one
error carrying the model and prompt identifier; and `Runner.run` always
produces one entry per (model, variant) combo, failures notwithstanding. -/
theorem c3_retry_policy (oracle : Nat → CallOutcome)
    (runId model promptId systemText userText timestamp : List Char)
    (lp : Option Int) (ctx : List (List Char × JValue)) :
    (Runner._call oracle).1 ≤ 3
    ∧ (∀ i, i + 1 < (Runner._call oracle).1 →
        ∃ e, oracle i = .exc e ∧ _is_retryable e = true)
    ∧ ((Runner._call oracle).1 = 3 ↔
        (∃ e, oracle 0 = .exc e ∧ _is_retryable e = true)
        ∧ (∃ e, oracle 1 = .exc e ∧ _is_retryable e = true))
    ∧ (∀ e, oracle 0 = .exc e → _is_retryable e = false → (Runner._call oracle).1 = 1)
    ∧ (∀ e, (Runner._call oracle).2 = .exc e →
        Runner._process runId model promptId lp ctx systemText userText timestamp oracle
          = (none, [⟨model, promptId⟩]))
    ∧ (∀ (models : List (List Char)) (prompts : List PromptTemplate)
          (orc : Nat → Nat → CallOutcome) (rs : List (Option JValue × List LogEntry)),
        Runner.run runId models prompts timestamp orc = .ok rs →
        ∃ expanded, runExpanded prompts = .ok expanded
          ∧ rs.length = (runCombos models expanded).length) := by
  have hproc : ∀ e, (Runner._call oracle).2 = .exc e →
      Runner._process runId model promptId lp ctx systemText userText timestamp oracle
        = (none, [⟨model, promptId⟩]) := by
    intro e he
    unfold Runner._process
    rw [he]
  have hrun : ∀ (models : List (List Char)) (prompts : List PromptTemplate)
      (orc : Nat → Nat → CallOutcome) (rs : List (Option JValue × List LogEntry)),
      Runner.run runId models prompts timestamp orc = .ok rs →
      ∃ expanded, runExpanded prompts = .ok expanded
        ∧ rs.length = (runCombos models expanded).length := by
    intro models prompts orc rs h
    rw [Runner.run] at h
    cases he : runExpanded prompts with
    | error e => rw [he] at h; exact absurd h (by simp)
    | ok expanded =>
      rw [he] at h
      cases h
      exact ⟨expanded, rfl, List.length_mapIdx⟩
  have hmain : (Runner._call oracle).1 ≤ 3
      ∧ (∀ i, i + 1 < (Runner._call oracle).1 →
          ∃ e, oracle i = .exc e ∧ _is_retryable e = true)
      ∧ ((Runner._call oracle).1 = 3 ↔
          (∃ e, oracle 0 = .exc e ∧ _is_retryable e = true)
          ∧ (∃ e, oracle 1 = .exc e ∧ _is_retryable e = true))
      ∧ (∀ e, oracle 0 = .exc e → _is_retryable e = false →
          (Runner._call oracle).1 = 1) := by
    cases h0 : oracle 0 with
    | ok r0 =>
      have hc : Runner._call oracle = (1, .ok r0) := by
        simp [Runner._call, tenacityCall, h0]
      rw [hc]
      refine ⟨by omega, fun i hi => by simp at hi, ?_, fun e he _ => rfl⟩
      constructor
      · intro h; simp at h
      · rintro ⟨⟨e, he, -⟩, -⟩
        simp at he
    | exc e0 =>
      by_cases hr0 : _is_retryable e0
      · cases h1 : oracle 1 with
        | ok r1 =>
          have hc : Runner._call oracle = (2, .ok r1) := by
            simp [Runner._call, tenacityCall, h0, hr0, h1]
          rw [hc]
          refine ⟨by omega, ?_, ?_, ?_⟩
          · intro i hi
            have : i = 0 := by omega
            subst this
            exact ⟨e0, h0, hr0⟩
          · constructor
            · intro h; simp at h
            · rintro ⟨-, ⟨e, he, -⟩⟩
              simp at he
          · intro e he hre
            cases he
            rw [hr0] at hre
            simp at hre
        | exc e1 =>
          by_cases hr1 : _is_retryable e1
          · have hc : Runner._call oracle = (3, oracle 2) := by
              simp [Runner._call, tenacityCall, h0, hr0, h1, hr1]
            rw [hc]
            refine ⟨by omega, ?_, ?_, ?_⟩
            · intro i hi
              have : i = 0 ∨ i = 1 := by omega
              rcases this with rfl | rfl
              · exact ⟨e0, h0, hr0⟩
              · exact ⟨e1, h1, hr1⟩
            · exact ⟨fun _ => ⟨⟨e0, rfl, hr0⟩, ⟨e1, rfl, hr1⟩⟩, fun _ => rfl⟩
            · intro e he hre
              cases he
              rw [hr0] at hre
              simp at hre
          · have hc : Runner._call oracle = (2, .exc e1) := by
              simp [Runner._call, tenacityCall, h0, hr0, h1, hr1]
            rw [hc]
            refine ⟨by omega, ?_, ?_, ?_⟩
            · intro i hi
              have : i = 0 := by omega
              subst this
              exact ⟨e0, h0, hr0⟩
            · constructor
              · intro h; simp at h
              · rintro ⟨-, ⟨e, he, hre⟩⟩
                cases he
                exact absurd hre hr1
            · intro e he hre
              cases he
              rw [hr0] at hre
              simp at hre
      · have hc : Runner._call oracle = (1, .exc e0) := by
          simp [Runner._call, tenacityCall, h0, hr0]
        rw [hc]
        refine ⟨by omega, fun i hi => by simp at hi, ?_, fun e he hre => rfl⟩
        constructor
        · intro h; simp at h
        · rintro ⟨⟨e, he, hre⟩, -⟩
          cases he
          exact absurd hre hr0
  exact ⟨hmain.1, hmain.2.1, hmain.2.2.1, hmain.2.2.2, hproc, hrun⟩

/-- The non-retryable failure used in the retry-policy witness (HTTP 400). -/
def c3BadRequest : PyExc := { status_code := some 400 }

theorem c3_retry_policy_witness :
    (Runner._call (fun _ => .exc c3BadRequest)).1 = 1
    ∧ Runner._process (strOf "r") (strOf "m") (strOf "p") none [] (strOf "s") (strOf "u")
        (strOf "ts") (fun _ => .exc c3BadRequest)
        = (none, [⟨strOf "m", strOf "p"⟩]) := by
  have h := c3_retry_policy (fun _ => .exc c3BadRequest) (strOf "r") (strOf "m") (strOf "p")
    (strOf "s") (strOf "u") (strOf "ts") none []
  refine ⟨h.2.2.2.1 c3BadRequest rfl (by decide), h.2.2.2.2.1 c3BadRequest ?_⟩
  have h1 := h.2.2.2.1 c3BadRequest rfl (by decide)
  decide

/-- The trivial template used in the C4 counterexample. -/
def c4Template : PromptTemplate := { id := strOf "p", system := strOf "s", user := strOf "u" }

/-- Its single expanded variant. -/
def c4Exp : Expanded := ⟨strOf "p", none, [], strOf "s", strOf "u"⟩

/-- C4 counterexample: when the model list itself repeats a model id, the
combo list of `Runner.run` contains the same (model, variant) combination
twice, so that combination is attempted twice, not exactly once as the claim
states over every list of models. -/
theorem c4_counterexample :
    runExpanded [c4Template] = .ok [c4Exp]
    ∧ (runCombos [strOf "m", strOf "m"] [c4Exp]).count ((strOf "m"), c4Exp) = 2 := by
  exact ⟨by decide, by decide⟩

/-- C4 (amended): `Runner.run` attempts exactly
`(number of models) × (sum over templates of variant count)` requests — the
combo list has that length, each template contributing the product of its
list-variable lengths — and, provided the model list and the expanded
variant list are duplicate-free, every (model, variant) combination occurs
exactly once; the run produces one processed entry per combo. -/
theorem c4_run_cross_product (models : List (List Char)) (prompts : List PromptTemplate)
    (expanded : List Expanded) (h : runExpanded prompts = .ok expanded) :
    (runCombos models expanded).length = models.length * expanded.length
    ∧ expanded.length = (prompts.map (fun p =>
        (p.list_vars.map (fun kv => (jListElems kv.2).length)).prod)).sum
    ∧ (models.Nodup → expanded.Nodup → (runCombos models expanded).Nodup)
    ∧ (∀ (runId timestamp : List Char) (orc : Nat → Nat → CallOutcome)
          (rs : List (Option JValue × List LogEntry)),
        Runner.run runId models prompts timestamp orc = .ok rs →
        rs.length = models.length * expanded.length) := by
  have hlen1 : (runCombos models expanded).length = models.length * expanded.length := by
    rw [runCombos, List.length_flatMap]
    simp only [Function.comp_def, List.length_map, List.map_const', List.sum_replicate,
      smul_eq_mul]
  have hlen2 : expanded.length = (prompts.map (fun p =>
      (p.list_vars.map (fun kv => (jListElems kv.2).length)).prod)).sum := by
    simp only [runExpanded] at h
    cases hm : mapME expandEntry prompts with
    | error e => rw [hm] at h; exact absurd h (by simp)
    | ok groups =>
      rw [hm] at h
      cases h
      rw [List.length_flatten]
      have hg : groups.map List.length = prompts.map (fun p =>
          (p.list_vars.map (fun kv => (jListElems kv.2).length)).prod) := by
        apply mapME_ok_map_eq ?_ hm
        intro p g hg
        cases he : p.expand with
        | error e => simp [expandEntry, he] at hg
        | ok vs =>
          simp only [expandEntry, he] at hg
          cases hg
          simp [expand_ok_length he]
      rw [hg]
  refine ⟨hlen1, hlen2, ?_, ?_⟩
  · intro hmod hexp
    rw [runCombos, List.nodup_flatMap]
    constructor
    · intro m _
      exact List.Nodup.map (fun a b hab => congrArg Prod.snd hab) hexp
    · refine hmod.imp ?_
      intro a b hab z hz1 hz2
      obtain ⟨e1, _, rfl⟩ := List.mem_map.mp hz1
      obtain ⟨e2, _, hz⟩ := List.mem_map.mp hz2
      exact hab (congrArg Prod.fst hz.symm)
  · intro runId timestamp orc rs hr
    simp only [Runner.run, h] at hr
    cases hr
    rw [List.length_mapIdx]
    exact hlen1

/-- Two-variant template for the C4 witness. -/
def c4TemplateA : PromptTemplate :=
  { id := strOf "a", system := strOf "s", user := strOf "u",
    vars := [(strOf "x", .arr [.num 1, .num 2])] }

/-- Variant-free template for the C4 witness. -/
def c4TemplateB : PromptTemplate := { id := strOf "b", system := strOf "s", user := strOf "u" }

/-- The expansion of the two witness templates. -/
def c4Expanded : List Expanded :=
  [⟨strOf "a", none, [(strOf "x", .num 1)], strOf "s", strOf "u"⟩,
   ⟨strOf "a", none, [(strOf "x", .num 2)], strOf "s", strOf "u"⟩,
   ⟨strOf "b", none, [], strOf "s", strOf "u"⟩]

theorem c4_run_cross_product_witness :
    (runCombos [strOf "m1", strOf "m2"] c4Expanded).length = 6 :=
  ((c4_run_cross_product [strOf "m1", strOf "m2"] [c4TemplateA, c4TemplateB] c4Expanded
      (by decide)).1).trans (by decide)

/-! ## JSON serialisation: `json.dumps(record, ensure_ascii=False, indent=2)` -/

/-- Lower-case hex digit for `d < 16`. -/
def hexDigit (d : Nat) : Char := (strOf "0123456789abcdef").getD d '0'

/-- One character of a JSON string, escaped as Python's encoder does with
`ensure_ascii=False`: the named escapes, `\u00XX` for the remaining control
characters, everything else verbatim. -/
def escapeChar (c : Char) : List Char :=
  if c = '"' then ['\\', '"']
  else if c = '\\' then ['\\', '\\']
  else if c = '\n' then ['\\', 'n']
  else if c = '\t' then ['\\', 't']
  else if c = '\r' then ['\\', 'r']
  else if c = Char.ofNat 8 then ['\\', 'b']
  else if c = Char.ofNat 12 then ['\\', 'f']
  else if c.toNat < 32 then
    ['\\', 'u', '0', '0', hexDigit (c.toNat / 16), hexDigit (c.toNat % 16)]
  else [c]

/-- A JSON string literal: quoted, characters escaped. -/
def encStr (s : List Char) : List Char := '"' :: (s.flatMap escapeChar ++ ['"'])

/-- A newline plus the current indentation. -/
def nlIndent (n : Nat) : List Char := '\n' :: List.replicate n ' '

mutual

/-- `json.dumps(v, ensure_ascii=False, indent=2)` with the enclosing
container indented by `ind` spaces. -/
def JValue.dumpsAt : JValue → Nat → List Char
  | .null, _ => strOf "null"
  | .bool true, _ => strOf "true"
  | .bool false, _ => strOf "false"
  | .num n, _ => intRepr n
  | .str s, _ => encStr s
  | .arr [], _ => strOf "[]"
  | .arr (x :: xs), ind =>
      '[' :: (nlIndent (ind + 2) ++ JValue.dumpsElems (x :: xs) (ind + 2) ++ nlIndent ind
        ++ [']'])
  | .obj [], _ => strOf "\x7b\x7d"
  | .obj (f :: fs), ind =>
      lbrace :: (nlIndent (ind + 2) ++ JValue.dumpsFields (f :: fs) (ind + 2) ++ nlIndent ind
        ++ [rbrace])

/-- The `,\n`-separated elements of a non-empty array. -/
def JValue.dumpsElems : List JValue → Nat → List Char
  | [], _ => []
  | [x], ind => JValue.dumpsAt x ind
  | x :: y :: ys, ind =>
      JValue.dumpsAt x ind ++ ',' :: (nlIndent ind ++ JValue.dumpsElems (y :: ys) ind)

/-- The `,\n`-separated `"key": value` members of a non-empty object. -/
def JValue.dumpsFields : List (List Char × JValue) → Nat → List Char
  | [], _ => []
  | [(k, v)], ind => encStr k ++ ':' :: ' ' :: JValue.dumpsAt v ind
  | (k, v) :: f :: fs, ind =>
      (encStr k ++ ':' :: ' ' :: JValue.dumpsAt v ind) ++
        ',' :: (nlIndent ind ++ JValue.dumpsFields (f :: fs) ind)

end

def JValue.dumps (v : JValue) : List Char := JValue.dumpsAt v 0

/-! ## `ResponseCollector` (src/src/collector.py) -/

/-- `ResponseCollector.save`: append the pretty-printed record plus a blank
line (`json.dumps(record, ensure_ascii=False, indent=2, cls=_ModelEncoder) +
"\n\n"` followed by a flush); `_ModelEncoder` only converts SDK objects to
plain values, which `JValue` already is. -/
def ResponseCollector.save (record : JValue) : List Char :=
  JValue.dumps record ++ strOf "\n\n"

/-- A collector session over the output file: `__enter__` opens it in append
mode (`open(self.output_path, "a")`), so the session starts from the file's
existing contents and each `save` appends to them. -/
def collectorSession (initialContents : List Char) (records : List JValue) : List Char :=
  records.foldl (fun contents r => contents ++ ResponseCollector.save r) initialContents

/-- C9: entering a `ResponseCollector` never truncates the output file: for
every sequence of saves the bytes present before the session are a prefix of
the file afterwards, so records written by earlier runs to the same path are
preserved. -/
theorem c9_append_only (initialContents : List Char) (records : List JValue) :
    ∃ rest, collectorSession initialContents records = initialContents ++ rest := by
  induction records generalizing initialContents with
  | nil => exact ⟨[], by simp [collectorSession]⟩
  | cons r rs ih =>
    obtain ⟨rest, hrest⟩ := ih (initialContents ++ ResponseCollector.save r)
    refine ⟨ResponseCollector.save r ++ rest, ?_⟩
    have hstep : collectorSession initialContents (r :: rs)
        = collectorSession (initialContents ++ ResponseCollector.save r) rs := rfl
    rw [hstep, hrest, List.append_assoc]

/-! ## JSON parsing: `json.JSONDecoder().raw_decode`

The parser covers the fragment this repository reads and writes: objects,
arrays, strings with the named escapes and `\u00XX`, integers, literals.
Surrogate-pair combination and float syntax are outside the fragment (the
serialiser never emits them and no input under study contains them). -/

/-- Skip the leading run of JSON whitespace. -/
def skipWsL : List Char → List Char
  | [] => []
  | c :: rest => if isJsonWs c then skipWsL rest else c :: rest

/-- Value of a hex digit character, `none` otherwise. -/
def hexVal (c : Char) : Option Nat :=
  if '0' ≤ c ∧ c ≤ '9' then some (c.toNat - 48)
  else if 'a' ≤ c ∧ c ≤ 'f' then some (c.toNat - 87)
  else if 'A' ≤ c ∧ c ≤ 'F' then some (c.toNat - 55)
  else none

/-- A single-character escape after a backslash. -/
def unescapeChar (c : Char) : Option Char :=
  if c = '"' then some '"'
  else if c = '\\' then some '\\'
  else if c = '/' then some '/'
  else if c = 'b' then some (Char.ofNat 8)
  else if c = 'f' then some (Char.ofNat 12)
  else if c = 'n' then some '\n'
  else if c = 'r' then some '\r'
  else if c = 't' then some '\t'
  else none

/-- The body of a JSON string after the opening quote, strict mode: raw
control characters are refused, escapes decoded. -/
def parseStr : List Char → Option (List Char × List Char)
  | [] => none
  | '"' :: rest => some ([], rest)
  | '\\' :: 'u' :: h1 :: h2 :: h3 :: h4 :: rest =>
    match hexVal h1, hexVal h2, hexVal h3, hexVal h4, parseStr rest with
    | some a, some b, some c3, some d, some (s, cs) =>
        some (Char.ofNat (((a * 16 + b) * 16 + c3) * 16 + d) :: s, cs)
    | _, _, _, _, _ => none
  | '\\' :: e :: rest =>
    match unescapeChar e, parseStr rest with
    | some u, some (s, cs) => some (u :: s, cs)
    | _, _ => none
  | c :: rest =>
    if c.toNat < 32 then none
    else
      match parseStr rest with
      | some (s, cs) => some (c :: s, cs)
      | none => none

/-- Maximal run of decimal digits. -/
def spanDigits : List Char → List Char × List Char
  | [] => ([], [])
  | c :: rest =>
    if c.isDigit then
      let p := spanDigits rest
      (c :: p.1, p.2)
    else ([], c :: rest)

/-- A JSON number (the integer fragment). -/
def parseNum : List Char → Option (Int × List Char)
  | [] => none
  | c :: rest =>
    if c = '-' then
      let p := spanDigits rest
      if p.1.isEmpty then none else some (-(decodeDec p.1 : Int), p.2)
    else
      let p := spanDigits (c :: rest)
      if p.1.isEmpty then none else some ((decodeDec p.1 : Int), p.2)

/-- Python dict assignment `d[k] = v`: update the value in place when the
key exists, append otherwise. -/
def insertPair : List (List Char × JValue) → List Char → JValue → List (List Char × JValue)
  | [], k, v => [(k, v)]
  | (k2, v2) :: rest, k, v =>
    if k2 = k then (k2, v) :: rest else (k2, v2) :: insertPair rest k v

/-- `dict(pairs)`: the decoder collects the members as a pair list and builds
the dict from it, later occurrences of a key overwriting earlier ones. -/
def dictOfPairs (ps : List (List Char × JValue)) : List (List Char × JValue) :=
  ps.foldl (fun d p => insertPair d p.1 p.2) []

mutual

/-- One JSON value starting at the head of the input — `raw_decode` does not
skip leading whitespace, which is why `load_prompts` and `_load_records` skip
it before each record.  Fuelled: every recursive call consumes input, so fuel
`length + 1` never runs out. -/
def parseValue : Nat → List Char → Option (JValue × List Char)
  | 0, _ => none
  | fuel + 1, cs =>
    match cs with
    | [] => none
    | c :: rest =>
      if c = '"' then
        match parseStr rest with
        | some (s, cs2) => some (.str s, cs2)
        | none => none
      else if c = '[' then
        match parseElems fuel rest with
        | some (xs, cs2) => some (.arr xs, cs2)
        | none => none
      else if c = lbrace then
        match parseFields fuel rest with
        | some (ps, cs2) => some (.obj (dictOfPairs ps), cs2)
        | none => none
      else if c = 't' then
        match rest with
        | 'r' :: 'u' :: 'e' :: cs2 => some (.bool true, cs2)
        | _ => none
      else if c = 'f' then
        match rest with
        | 'a' :: 'l' :: 's' :: 'e' :: cs2 => some (.bool false, cs2)
        | _ => none
      else if c = 'n' then
        match rest with
        | 'u' :: 'l' :: 'l' :: cs2 => some (.null, cs2)
        | _ => none
      else if c = '-' ∨ c.isDigit then
        match parseNum (c :: rest) with
        | some (n, cs2) => some (.num n, cs2)
        | none => none
      else none

/-- The elements of an array, after the opening bracket. -/
def parseElems : Nat → List Char → Option (List JValue × List Char)
  | 0, _ => none
  | fuel + 1, cs =>
    match skipWsL cs with
    | [] => none
    | c :: rest =>
      if c = ']' then some ([], rest)
      else
        match parseValue fuel (c :: rest) with
        | some (v, cs2) =>
          match parseElemsTail fuel cs2 with
          | some (vs, cs3) => some (v :: vs, cs3)
          | none => none
        | none => none

/-- After an array element: a comma and the next element, or the close. -/
def parseElemsTail : Nat → List Char → Option (List JValue × List Char)
  | 0, _ => none
  | fuel + 1, cs =>
    match skipWsL cs with
    | [] => none
    | c :: rest =>
      if c = ']' then some ([], rest)
      else if c = ',' then
        match parseValue fuel (skipWsL rest) with
        | some (v, cs2) =>
          match parseElemsTail fuel cs2 with
          | some (vs, cs3) => some (v :: vs, cs3)
          | none => none
        | none => none
      else none

/-- The members of an object, after the opening brace. -/
def parseFields : Nat → List Char → Option (List (List Char × JValue) × List Char)
  | 0, _ => none
  | fuel + 1, cs =>
    match skipWsL cs with
    | [] => none
    | c :: rest =>
      if c = rbrace then some ([], rest)
      else if c = '"' then
        match parseStr rest with
        | some (k, cs1) =>
          match skipWsL cs1 with
          | ':' :: cs2 =>
            match parseValue fuel (skipWsL cs2) with
            | some (v, cs3) =>
              match parseFieldsTail fuel cs3 with
              | some (ps, cs4) => some ((k, v) :: ps, cs4)
              | none => none
            | none => none
          | _ => none
        | none => none
      else none

/-- After an object member: a comma and the next member, or the close. -/
def parseFieldsTail : Nat → List Char → Option (List (List Char × JValue) × List Char)
  | 0, _ => none
  | fuel + 1, cs =>
    match skipWsL cs with
    | [] => none
    | c :: rest =>
      if c = rbrace then some ([], rest)
      else if c = ',' then
        match skipWsL rest with
        | q :: cs1 =>
          if q = '"' then
            match parseStr cs1 with
            | some (k, cs2) =>
              match skipWsL cs2 with
              | ':' :: cs3 =>
                match parseValue fuel (skipWsL cs3) with
                | some (v, cs4) =>
                  match parseFieldsTail fuel cs4 with
                  | some (ps, cs5) => some ((k, v) :: ps, cs5)
                  | none => none
                | none => none
              | _ => none
            | none => none
          else none
        | [] => none
      else none

end

/-- `decoder.raw_decode(text, pos)`: one value from the head of the text and
the remaining text (the `end` index is the consumed length). -/
def rawDecode (cs : List Char) : Option (JValue × List Char) :=
  parseValue (cs.length + 1) cs

/-- The skip-whitespace-then-decode loop shared by `_load_records` and
`load_prompts`, fuelled on iterations (each iteration consumes at least one
character, so `length + 1` iterations always suffice). -/
def loadRecordsLoop : Nat → List Char → Option (List JValue)
  | 0, _ => none
  | fuel + 1, cs =>
    match skipWsL cs with
    | [] => some []
    | c :: rest =>
      match rawDecode (c :: rest) with
      | some (v, remaining) =>
        match loadRecordsLoop fuel remaining with
        | some vs => some (v :: vs)
        | none => none
      | none => none

/-- `_load_records` (src/visualizer/visualize.py): parse the whole file into
a list of records, tolerating interleaved whitespace; a decode error
propagates (there is no try/except in the visualizer's loader). -/
def _load_records (text : List Char) : Option (List JValue) :=
  loadRecordsLoop (text.length + 1) text

example : _load_records (strOf "<>") = none := by decide
example : _load_records (strOf " 5 \n\n true") = some [.num 5, .bool true] := by decide

/-! ### Round-trip: the parser reads back what the serialiser wrote -/

mutual

/-- Parser fuel sufficient for this value's serialisation. -/
def jfuel : JValue → Nat
  | .null => 1
  | .bool _ => 1
  | .num _ => 1
  | .str _ => 1
  | .arr xs => 2 + jfuelList xs + 2 * xs.length
  | .obj fs => 2 + jfuelFields fs + 2 * fs.length

def jfuelList : List JValue → Nat
  | [] => 0
  | x :: xs => jfuel x + jfuelList xs

def jfuelFields : List (List Char × JValue) → Nat
  | [] => 0
  | (_, v) :: fs => jfuel v + jfuelFields fs

end

theorem jfuel_pos : ∀ v : JValue, 1 ≤ jfuel v
  | .null | .bool _ | .num _ | .str _ => le_refl 1
  | .arr _ => by simp [jfuel]; omega
  | .obj _ => by simp [jfuel]; omega

/-- Pairwise-distinct first components. -/
def keysDistinct : List (List Char × JValue) → Bool
  | [] => true
  | (k, _) :: fs => !(fs.any (fun p => p.1 == k)) && keysDistinct fs

mutual

/-- Recursively duplicate-free object keys: every object reachable inside
the value has pairwise-distinct keys, as every dict a Python program can
build does. -/
def JValue.wellKeyed : JValue → Bool
  | .null => true
  | .bool _ => true
  | .num _ => true
  | .str _ => true
  | .arr xs => JValue.wellKeyedList xs
  | .obj fs => keysDistinct fs && JValue.wellKeyedFields fs

def JValue.wellKeyedList : List JValue → Bool
  | [] => true
  | x :: xs => JValue.wellKeyed x && JValue.wellKeyedList xs

def JValue.wellKeyedFields : List (List Char × JValue) → Bool
  | [] => true
  | (_, v) :: fs => JValue.wellKeyed v && JValue.wellKeyedFields fs

end

theorem insertPair_append {d : List (List Char × JValue)} {k : List Char} {v : JValue}
    (h : ∀ p ∈ d, p.1 ≠ k) : insertPair d k v = d ++ [(k, v)] := by
  induction d with
  | nil => rfl
  | cons p d ih =>
    obtain ⟨k2, v2⟩ := p
    have hne : ¬(k2 = k) := h (k2, v2) (by simp)
    simp only [insertPair, if_neg hne, List.cons_append, List.cons.injEq, true_and]
    exact ih (fun q hq => h q (by simp [hq]))

theorem dictOfPairs_self {ps : List (List Char × JValue)} (h : keysDistinct ps = true) :
    dictOfPairs ps = ps := by
  suffices H : ∀ (d : List (List Char × JValue)), keysDistinct ps = true →
      (∀ p ∈ ps, ∀ q ∈ d, q.1 ≠ p.1) →
      ps.foldl (fun d p => insertPair d p.1 p.2) d = d ++ ps by
    simpa [dictOfPairs] using H [] h (by simp)
  clear h
  induction ps with
  | nil => intro d _ _; simp
  | cons p ps ih =>
    intro d h hdisj
    obtain ⟨k, v⟩ := p
    simp only [keysDistinct, Bool.and_eq_true, Bool.not_eq_true'] at h
    have hins : insertPair d k v = d ++ [(k, v)] :=
      insertPair_append (fun q hq => hdisj (k, v) (by simp) q hq)
    rw [List.foldl_cons]
    simp only [hins]
    rw [ih (d ++ [(k, v)]) h.2 ?_]
    · simp
    · intro p hp q hq
      rcases List.mem_append.mp hq with hq1 | hq2
      · exact hdisj p (by simp [hp]) q hq1
      · simp only [List.mem_singleton] at hq2
        subst hq2
        have := List.any_eq_false.mp h.1 p hp
        simp only [beq_eq_false_iff_ne] at this
        exact fun hk => this (by rw [← hk]; simp)

/-! #### Whitespace and head-character facts -/

theorem skipWsL_cons_of_not (c : Char) (cs : List Char) (h : isJsonWs c = false) :
    skipWsL (c :: cs) = c :: cs := by
  simp [skipWsL, h]

theorem skipWsL_append (ws cs : List Char) (h : ∀ c ∈ ws, isJsonWs c = true) :
    skipWsL (ws ++ cs) = skipWsL cs := by
  induction ws with
  | nil => rfl
  | cons c ws ih =>
    simp only [List.cons_append, skipWsL, h c (by simp), if_true]
    exact ih (fun c hc => h c (by simp [hc]))

theorem nlIndent_all_ws (n : Nat) : ∀ c ∈ nlIndent n, isJsonWs c = true := by
  intro c hc
  simp only [nlIndent, List.mem_cons] at hc
  rcases hc with rfl | hc
  · decide
  · rw [List.eq_of_mem_replicate hc]
    decide

theorem skipWsL_nlIndent (n : Nat) (cs : List Char) :
    skipWsL (nlIndent n ++ cs) = skipWsL cs :=
  skipWsL_append _ _ (nlIndent_all_ws n)

theorem dumpsAt_head_shape : ∀ (v : JValue) (ind : Nat),
    ∃ c s, JValue.dumpsAt v ind = c :: s ∧
      (c = '"' ∨ c = '[' ∨ c = lbrace ∨ c = 't' ∨ c = 'f' ∨ c = 'n' ∨ c = '-'
        ∨ c.isDigit = true) := by
  intro v ind
  cases v with
  | null => exact ⟨'n', strOf "ull", rfl, by simp⟩
  | bool b => cases b with
    | true => exact ⟨'t', strOf "rue", rfl, by simp⟩
    | false => exact ⟨'f', strOf "alse", rfl, by simp⟩
  | num n =>
    cases n with
    | ofNat m =>
      obtain ⟨c, s, hcs⟩ := List.exists_cons_of_ne_nil (natRepr_ne_nil m)
      refine ⟨c, s, hcs, Or.inr (Or.inr (Or.inr (Or.inr (Or.inr (Or.inr (Or.inr ?_))))))⟩
      exact natRepr_all_digits m c (by rw [hcs]; simp)
    | negSucc m => exact ⟨'-', natRepr (m + 1), rfl, by simp⟩
  | str s => exact ⟨'"', s.flatMap escapeChar ++ ['"'], rfl, by simp⟩
  | arr xs => cases xs with
    | nil => exact ⟨'[', [']'], rfl, by simp⟩
    | cons x xs =>
        exact ⟨'[', nlIndent (ind + 2) ++ JValue.dumpsElems (x :: xs) (ind + 2)
          ++ nlIndent ind ++ [']'], rfl, by simp⟩
  | obj fs => cases fs with
    | nil => exact ⟨lbrace, [rbrace], rfl, by simp⟩
    | cons f fs =>
        exact ⟨lbrace, nlIndent (ind + 2) ++ JValue.dumpsFields (f :: fs) (ind + 2)
          ++ nlIndent ind ++ [rbrace], rfl, by simp⟩

theorem head_shape_consequences {c : Char}
    (h : c = '"' ∨ c = '[' ∨ c = lbrace ∨ c = 't' ∨ c = 'f' ∨ c = 'n' ∨ c = '-'
      ∨ c.isDigit = true) :
    isJsonWs c = false ∧ c ≠ ']' ∧ c ≠ rbrace ∧ c ≠ ',' := by
  rcases h with rfl | rfl | rfl | rfl | rfl | rfl | rfl | hd
  · exact ⟨by decide, by decide, by decide, by decide⟩
  · exact ⟨by decide, by decide, by decide, by decide⟩
  · exact ⟨by decide, by decide, by decide, by decide⟩
  · exact ⟨by decide, by decide, by decide, by decide⟩
  · exact ⟨by decide, by decide, by decide, by decide⟩
  · exact ⟨by decide, by decide, by decide, by decide⟩
  · exact ⟨by decide, by decide, by decide, by decide⟩
  · refine ⟨?_, ?_, ?_, ?_⟩
    · cases hw : isJsonWs c with
      | false => rfl
      | true =>
        simp only [isJsonWs, Bool.or_eq_true, decide_eq_true_eq] at hw
        rcases hw with ((rfl | rfl) | rfl) | rfl <;> exact absurd hd (by decide)
    · rintro rfl; exact absurd hd (by decide)
    · rintro rfl; exact absurd hd (by decide)
    · rintro rfl; exact absurd hd (by decide)

theorem skipWsL_dumpsAt (v : JValue) (ind : Nat) (w : List Char) :
    skipWsL (JValue.dumpsAt v ind ++ w) = JValue.dumpsAt v ind ++ w := by
  obtain ⟨c, s, hcs, hc⟩ := dumpsAt_head_shape v ind
  rw [hcs, List.cons_append]
  exact skipWsL_cons_of_not _ _ (head_shape_consequences hc).1

/-! #### Number and string round-trips -/

/-- No digit at the head of the remainder: a serialised number followed by
such text parses back exactly (inside a document the next character is always
a separator or a close bracket). -/
def noDigitHead : List Char → Prop
  | [] => True
  | c :: _ => c.isDigit = false

theorem spanDigits_append (xs ys : List Char) (hx : ∀ c ∈ xs, c.isDigit = true)
    (hy : noDigitHead ys) : spanDigits (xs ++ ys) = (xs, ys) := by
  induction xs with
  | nil =>
    cases ys with
    | nil => rfl
    | cons c l =>
      simp only [noDigitHead] at hy
      simp [spanDigits, hy]
  | cons c xs ih =>
    have hi := ih (fun c hc => hx c (by simp [hc]))
    rw [List.cons_append, spanDigits]
    simp [hx c (by simp), hi]

theorem intRepr_head (n : Int) :
    ∃ c s, intRepr n = c :: s ∧ (c = '-' ∨ c.isDigit = true) := by
  cases n with
  | ofNat m =>
    obtain ⟨c, s, hcs⟩ := List.exists_cons_of_ne_nil (natRepr_ne_nil m)
    exact ⟨c, s, hcs, Or.inr (natRepr_all_digits m c (by rw [hcs]; simp))⟩
  | negSucc m => exact ⟨'-', natRepr (m + 1), rfl, Or.inl rfl⟩

theorem parseNum_intRepr (n : Int) (rest : List Char) (hrest : noDigitHead rest) :
    parseNum (intRepr n ++ rest) = some (n, rest) := by
  cases n with
  | ofNat m =>
    obtain ⟨c, s, hcs⟩ := List.exists_cons_of_ne_nil (natRepr_ne_nil m)
    have hdigits := natRepr_all_digits m
    have hc : c.isDigit = true := hdigits c (by rw [hcs]; simp)
    have hcm : ¬(c = '-') := by rintro rfl; exact absurd hc (by decide)
    have hspan : spanDigits (natRepr m ++ rest) = (natRepr m, rest) :=
      spanDigits_append _ _ hdigits hrest
    show parseNum (natRepr m ++ rest) = some ((m : Int), rest)
    rw [hcs] at hspan ⊢
    rw [List.cons_append] at hspan ⊢
    rw [parseNum, if_neg hcm]
    simp only [hspan]
    rw [if_neg (by simp)]
    rw [show (c :: s) = natRepr m from hcs.symm, decodeDec_natRepr]
  | negSucc m =>
    have hspan : spanDigits (natRepr (m + 1) ++ rest) = (natRepr (m + 1), rest) :=
      spanDigits_append _ _ (natRepr_all_digits _) hrest
    show parseNum ('-' :: (natRepr (m + 1) ++ rest)) = some (Int.negSucc m, rest)
    rw [parseNum, if_pos rfl]
    simp only [hspan]
    rw [if_neg (by simp [natRepr_ne_nil])]
    rw [decodeDec_natRepr]
    have : -((m : Int) + 1) = Int.negSucc m := by
      rw [Int.negSucc_eq]
    push_cast
    rw [this]

theorem hexVal_hexDigit (d : Nat) (h : d < 16) : hexVal (hexDigit d) = some d := by
  interval_cases d <;> decide

theorem parseStr_encStrBody (s : List Char) :
    ∀ rest, parseStr (s.flatMap escapeChar ++ ('"' :: rest)) = some (s, rest) := by
  induction s with
  | nil =>
    intro rest
    simp [parseStr]
  | cons c s ih =>
    intro rest
    rw [List.flatMap_cons, List.append_assoc]
    by_cases h1 : c = '"'
    · subst h1
      rw [show escapeChar '"' = ['\\', '"'] from rfl]
      simp [parseStr, unescapeChar, ih]
    · by_cases h2 : c = '\\'
      · subst h2
        rw [show escapeChar '\\' = ['\\', '\\'] from rfl]
        simp [parseStr, unescapeChar, ih]
      · by_cases h3 : c = '\n'
        · subst h3
          rw [show escapeChar '\n' = ['\\', 'n'] from rfl]
          simp [parseStr, unescapeChar, ih]
        · by_cases h4 : c = '\t'
          · subst h4
            rw [show escapeChar '\t' = ['\\', 't'] from rfl]
            simp [parseStr, unescapeChar, ih]
          · by_cases h5 : c = '\r'
            · subst h5
              rw [show escapeChar '\r' = ['\\', 'r'] from rfl]
              simp [parseStr, unescapeChar, ih]
            · by_cases h6 : c = Char.ofNat 8
              · subst h6
                rw [show escapeChar (Char.ofNat 8) = ['\\', 'b'] from rfl]
                simp [parseStr, unescapeChar, ih]
              · by_cases h7 : c = Char.ofNat 12
                · subst h7
                  rw [show escapeChar (Char.ofNat 12) = ['\\', 'f'] from rfl]
                  simp [parseStr, unescapeChar, ih]
                · by_cases h8 : c.toNat < 32
                  · have hd1 : hexVal (hexDigit (c.toNat / 16)) = some (c.toNat / 16) :=
                      hexVal_hexDigit _ (by omega)
                    have hd2 : hexVal (hexDigit (c.toNat % 16)) = some (c.toNat % 16) :=
                      hexVal_hexDigit _ (by omega)
                    have hesc : escapeChar c
                        = ['\\', 'u', '0', '0', hexDigit (c.toNat / 16),
                            hexDigit (c.toNat % 16)] := by
                      simp only [escapeChar, if_neg h1, if_neg h2, if_neg h3, if_neg h4,
                        if_neg h5, if_neg h6, if_neg h7, if_pos h8]
                    have key : Char.ofNat (((0 * 16 + 0) * 16 + c.toNat / 16) * 16
                        + c.toNat % 16) = c := by
                      rw [show ((0 * 16 + 0) * 16 + c.toNat / 16) * 16 + c.toNat % 16
                          = c.toNat from by omega, Char.ofNat_toNat]
                    rw [hesc]
                    simp only [List.cons_append, List.nil_append]
                    rw [parseStr.eq_def]
                    simp only [hd1, hd2, show hexVal '0' = some 0 from by decide, ih rest, key]
                  · have hesc : escapeChar c = [c] := by
                      simp only [escapeChar, if_neg h1, if_neg h2, if_neg h3, if_neg h4,
                        if_neg h5, if_neg h6, if_neg h7, if_neg h8]
                    rw [hesc]
                    simp [parseStr, h1, h2, h8, ih rest]

/-- The text a non-empty array's serialisation places after its first
element: `,\n<indent><element>` per further element. -/
def sepElems : List JValue → Nat → List Char
  | [], _ => []
  | y :: ys, ind => ',' :: (nlIndent ind ++ (JValue.dumpsAt y ind ++ sepElems ys ind))

/-- Likewise for an object's further members. -/
def sepFields : List (List Char × JValue) → Nat → List Char
  | [], _ => []
  | (k, v) :: fs, ind =>
      ',' :: (nlIndent ind ++ (encStr k ++ ':' :: ' ' :: (JValue.dumpsAt v ind
        ++ sepFields fs ind)))

theorem dumpsElems_eq : ∀ (x : JValue) (xs : List JValue) (ind : Nat),
    JValue.dumpsElems (x :: xs) ind = JValue.dumpsAt x ind ++ sepElems xs ind := by
  intro x xs
  induction xs generalizing x with
  | nil => intro ind; simp [JValue.dumpsElems, sepElems]
  | cons y ys ih =>
    intro ind
    simp [JValue.dumpsElems, sepElems, ih y ind]

theorem dumpsFields_eq : ∀ (k : List Char) (v : JValue) (fs : List (List Char × JValue))
    (ind : Nat), JValue.dumpsFields ((k, v) :: fs) ind
      = encStr k ++ ':' :: ' ' :: (JValue.dumpsAt v ind ++ sepFields fs ind) := by
  intro k v fs
  induction fs generalizing k v with
  | nil => intro ind; simp [JValue.dumpsFields, sepFields]
  | cons f fs ih =>
    intro ind
    obtain ⟨k2, v2⟩ := f
    simp [JValue.dumpsFields, sepFields, ih k2 v2 ind]

theorem noDigitHead_nlIndent (j : Nat) (z : List Char) : noDigitHead (nlIndent j ++ z) := by
  simp [nlIndent, noDigitHead]

theorem noDigitHead_sepElems (xs : List JValue) (ind : Nat) (z : List Char)
    (hz : noDigitHead z) : noDigitHead (sepElems xs ind ++ z) := by
  cases xs with
  | nil => simpa [sepElems] using hz
  | cons y ys => simp [sepElems, noDigitHead]

theorem noDigitHead_sepFields (fs : List (List Char × JValue)) (ind : Nat) (z : List Char)
    (hz : noDigitHead z) : noDigitHead (sepFields fs ind ++ z) := by
  cases fs with
  | nil => simpa [sepFields] using hz
  | cons f fs =>
    obtain ⟨k, v⟩ := f
    simp [sepFields, noDigitHead]

theorem numHead_ne {c : Char} (h : c = '-' ∨ c.isDigit = true) :
    ¬(c = '"') ∧ ¬(c = '[') ∧ ¬(c = lbrace) ∧ ¬(c = 't') ∧ ¬(c = 'f') ∧ ¬(c = 'n') := by
  rcases h with rfl | hd
  · exact ⟨by decide, by decide, by decide, by decide, by decide, by decide⟩
  · refine ⟨?_, ?_, ?_, ?_, ?_, ?_⟩ <;> rintro rfl <;> exact absurd hd (by decide)

theorem skipWsL_comma : ∀ X : List Char, skipWsL (',' :: X) = ',' :: X :=
  fun X => skipWsL_cons_of_not ',' X (by decide)

theorem skipWsL_quote : ∀ X : List Char, skipWsL ('"' :: X) = '"' :: X :=
  fun X => skipWsL_cons_of_not '"' X (by decide)

theorem skipWsL_colon : ∀ X : List Char, skipWsL (':' :: X) = ':' :: X :=
  fun X => skipWsL_cons_of_not ':' X (by decide)

theorem skipWsL_space (X : List Char) : skipWsL (' ' :: X) = skipWsL X := by
  simp [skipWsL, show isJsonWs ' ' = true from by decide]

mutual

/-- A serialised value followed by non-digit text parses back to itself. -/
theorem parseValue_dumpsAt : ∀ (v : JValue) (ind : Nat) (rest : List Char) (fuel : Nat),
    jfuel v ≤ fuel → noDigitHead rest → JValue.wellKeyed v = true →
    parseValue fuel (JValue.dumpsAt v ind ++ rest) = some (v, rest)
  | .null, ind, rest, fuel => by
    intro hf _ _
    cases fuel with
    | zero => exact absurd hf (by simp [jfuel])
    | succ f =>
      rw [show JValue.dumpsAt .null ind = 'n' :: 'u' :: 'l' :: 'l' :: [] from rfl]
      simp [parseValue, show ¬('n' = lbrace) from by decide]
  | .bool true, ind, rest, fuel => by
    intro hf _ _
    cases fuel with
    | zero => exact absurd hf (by simp [jfuel])
    | succ f =>
      rw [show JValue.dumpsAt (.bool true) ind = 't' :: 'r' :: 'u' :: 'e' :: [] from rfl]
      simp [parseValue, show ¬('t' = lbrace) from by decide]
  | .bool false, ind, rest, fuel => by
    intro hf _ _
    cases fuel with
    | zero => exact absurd hf (by simp [jfuel])
    | succ f =>
      rw [show JValue.dumpsAt (.bool false) ind
          = 'f' :: 'a' :: 'l' :: 's' :: 'e' :: [] from rfl]
      simp [parseValue, show ¬('f' = lbrace) from by decide]
  | .num n, ind, rest, fuel => by
    intro hf hrest _
    cases fuel with
    | zero => exact absurd hf (by simp [jfuel])
    | succ f =>
      obtain ⟨c, s, hcs, hc⟩ := intRepr_head n
      obtain ⟨n1, n2, n3, n4, n5, n6⟩ := numHead_ne hc
      have hnum : parseNum (c :: (s ++ rest)) = some (n, rest) := by
        rw [← List.cons_append, ← hcs]
        exact parseNum_intRepr n rest hrest
      rw [show JValue.dumpsAt (.num n) ind = intRepr n from rfl, hcs, List.cons_append]
      simp only [parseValue, if_neg n1, if_neg n2, if_neg n3, if_neg n4, if_neg n5,
        if_neg n6, if_pos hc, hnum]
  | .str s, ind, rest, fuel => by
    intro hf _ _
    cases fuel with
    | zero => exact absurd hf (by simp [jfuel])
    | succ f =>
      rw [show JValue.dumpsAt (.str s) ind = '"' :: (s.flatMap escapeChar ++ ['"']) from rfl,
        List.cons_append, List.append_assoc,
        show ['"'] ++ rest = '"' :: rest from rfl]
      simp [parseValue, parseStr_encStrBody s rest]
  | .arr [], ind, rest, fuel => by
    intro hf _ _
    cases fuel with
    | zero => exact absurd hf (by simp [jfuel])
    | succ f =>
      have hf2 : 1 ≤ f := by simp [jfuel] at hf; omega
      cases f with
      | zero => omega
      | succ f2 =>
        rw [show JValue.dumpsAt (.arr []) ind = '[' :: ']' :: [] from rfl]
        simp [parseValue, parseElems, skipWsL, show isJsonWs ']' = false from by decide,
          show ¬('[' = lbrace) from by decide]
  | .arr (x :: xs), ind, rest, fuel => by
    intro hf hrest hw
    cases fuel with
    | zero => exact absurd hf (by simp [jfuel])
    | succ f =>
      have hw' : JValue.wellKeyedList (x :: xs) = true := by
        simpa [JValue.wellKeyed] using hw
      have hfb : jfuelList (x :: xs) + 2 * (x :: xs).length ≤ f := by
        simp [jfuel, jfuelList] at hf ⊢; omega
      have helems := parseElems_dumps (x :: xs) (ind + 2) ind rest f (by simp) hfb hw'
      rw [show JValue.dumpsAt (.arr (x :: xs)) ind
          = '[' :: (nlIndent (ind + 2) ++ JValue.dumpsElems (x :: xs) (ind + 2)
            ++ nlIndent ind ++ [']']) from rfl, List.cons_append]
      rw [show (nlIndent (ind + 2) ++ JValue.dumpsElems (x :: xs) (ind + 2)
            ++ nlIndent ind ++ [']']) ++ rest
          = nlIndent (ind + 2) ++ (JValue.dumpsElems (x :: xs) (ind + 2)
            ++ (nlIndent ind ++ (']' :: rest))) from by simp]
      simp [parseValue, helems]
  | .obj [], ind, rest, fuel => by
    intro hf _ _
    cases fuel with
    | zero => exact absurd hf (by simp [jfuel])
    | succ f =>
      have hf2 : 1 ≤ f := by simp [jfuel] at hf; omega
      cases f with
      | zero => omega
      | succ f2 =>
        rw [show JValue.dumpsAt (.obj []) ind = lbrace :: rbrace :: [] from rfl]
        simp [parseValue, parseFields, skipWsL, dictOfPairs,
          show isJsonWs rbrace = false from by decide,
          show ¬(lbrace = '"') from by decide, show ¬(lbrace = '[') from by decide]
  | .obj (f1 :: fs), ind, rest, fuel => by
    intro hf hrest hw
    cases fuel with
    | zero => exact absurd hf (by simp [jfuel])
    | succ f =>
      have hw1 : keysDistinct (f1 :: fs) = true ∧
          JValue.wellKeyedFields (f1 :: fs) = true := by
        simpa [JValue.wellKeyed, Bool.and_eq_true] using hw
      have hfb : jfuelFields (f1 :: fs) + 2 * (f1 :: fs).length ≤ f := by
        obtain ⟨k, v⟩ := f1
        simp [jfuel, jfuelFields] at hf ⊢; omega
      have hflds := parseFields_dumps (f1 :: fs) (ind + 2) ind rest f (by simp) hfb hw1.2
      rw [show JValue.dumpsAt (.obj (f1 :: fs)) ind
          = lbrace :: (nlIndent (ind + 2) ++ JValue.dumpsFields (f1 :: fs) (ind + 2)
            ++ nlIndent ind ++ [rbrace]) from by obtain ⟨k, v⟩ := f1; rfl, List.cons_append]
      rw [show (nlIndent (ind + 2) ++ JValue.dumpsFields (f1 :: fs) (ind + 2)
            ++ nlIndent ind ++ [rbrace]) ++ rest
          = nlIndent (ind + 2) ++ (JValue.dumpsFields (f1 :: fs) (ind + 2)
            ++ (nlIndent ind ++ (rbrace :: rest))) from by simp]
      simp only [parseValue, if_neg (show ¬(lbrace = '"') from by decide),
        if_neg (show ¬(lbrace = '[') from by decide), if_pos rfl, if_true, hflds,
        dictOfPairs_self hw1.1]

/-- The serialised elements of a non-empty array, between the whitespace
after `[` and the closing `]`, parse back to the element list. -/
theorem parseElems_dumps : ∀ (xs : List JValue) (ind j : Nat)
    (rest : List Char) (fuel : Nat), xs ≠ [] →
    jfuelList xs + 2 * xs.length ≤ fuel →
    JValue.wellKeyedList xs = true →
    parseElems fuel (nlIndent ind ++ (JValue.dumpsElems xs ind
      ++ (nlIndent j ++ (']' :: rest)))) = some (xs, rest)
  | [], ind, j, rest, fuel => by
    intro hne _ _
    exact absurd rfl hne
  | x :: xs, ind, j, rest, fuel => by
    intro _ hfuel hw
    cases fuel with
    | zero => simp [jfuelList] at hfuel
    | succ f =>
      obtain ⟨hwx, hwxs⟩ : JValue.wellKeyed x = true ∧ JValue.wellKeyedList xs = true := by
        simpa [JValue.wellKeyedList, Bool.and_eq_true] using hw
      obtain ⟨c, s, hcs, hc⟩ := dumpsAt_head_shape x ind
      have hcp := head_shape_consequences hc
      have hskip : skipWsL (nlIndent ind ++ (JValue.dumpsElems (x :: xs) ind
          ++ (nlIndent j ++ (']' :: rest))))
          = c :: (s ++ (sepElems xs ind ++ (nlIndent j ++ (']' :: rest)))) := by
        rw [dumpsElems_eq, List.append_assoc, skipWsL_nlIndent, skipWsL_dumpsAt, hcs,
          List.cons_append]
      have hv : parseValue f (c :: (s ++ (sepElems xs ind
          ++ (nlIndent j ++ (']' :: rest))))) = some (x, sepElems xs ind
          ++ (nlIndent j ++ (']' :: rest))) := by
        rw [← List.cons_append, ← hcs]
        exact parseValue_dumpsAt x ind _ f
          (by simp [jfuelList] at hfuel; omega)
          (noDigitHead_sepElems xs ind _ (noDigitHead_nlIndent j _)) hwx
      have ht := parseElemsTail_dumps xs ind j rest f
        (by simp [jfuelList] at hfuel ⊢; omega) hwxs
      simp only [parseElems, hskip, if_neg hcp.2.1, hv, ht]

/-- After a serialised element: the remaining `,`-separated elements and the
closing `]` parse back to the remaining list. -/
theorem parseElemsTail_dumps : ∀ (xs : List JValue) (ind j : Nat) (rest : List Char)
    (fuel : Nat), jfuelList xs + 2 * xs.length + 1 ≤ fuel →
    JValue.wellKeyedList xs = true →
    parseElemsTail fuel (sepElems xs ind ++ (nlIndent j ++ (']' :: rest)))
      = some (xs, rest)
  | [], ind, j, rest, fuel => by
    intro hfuel _
    cases fuel with
    | zero => omega
    | succ f =>
      rw [show sepElems [] ind = [] from rfl, List.nil_append]
      have hskip : skipWsL (nlIndent j ++ (']' :: rest)) = ']' :: rest := by
        rw [skipWsL_nlIndent, skipWsL_cons_of_not ']' _ (by decide)]
      simp only [parseElemsTail, hskip, if_pos rfl, if_true]
  | y :: ys, ind, j, rest, fuel => by
    intro hfuel hw
    cases fuel with
    | zero => simp [jfuelList] at hfuel
    | succ f =>
      obtain ⟨hwy, hwys⟩ : JValue.wellKeyed y = true ∧ JValue.wellKeyedList ys = true := by
        simpa [JValue.wellKeyedList, Bool.and_eq_true] using hw
      have hy : jfuel y ≤ f := by simp [jfuelList] at hfuel; omega
      have hZ : sepElems (y :: ys) ind ++ (nlIndent j ++ (']' :: rest))
          = ',' :: (nlIndent ind ++ (JValue.dumpsAt y ind
            ++ (sepElems ys ind ++ (nlIndent j ++ (']' :: rest))))) := by
        simp [sepElems]
      have hskip2 : skipWsL (nlIndent ind ++ (JValue.dumpsAt y ind
          ++ (sepElems ys ind ++ (nlIndent j ++ (']' :: rest)))))
          = JValue.dumpsAt y ind ++ (sepElems ys ind ++ (nlIndent j ++ (']' :: rest))) := by
        rw [skipWsL_nlIndent, skipWsL_dumpsAt]
      have hv : parseValue f (JValue.dumpsAt y ind ++ (sepElems ys ind
          ++ (nlIndent j ++ (']' :: rest)))) = some (y, sepElems ys ind
          ++ (nlIndent j ++ (']' :: rest))) :=
        parseValue_dumpsAt y ind _ f hy
          (noDigitHead_sepElems ys ind _ (noDigitHead_nlIndent j _)) hwy
      have ht := parseElemsTail_dumps ys ind j rest f
        (by simp [jfuelList] at hfuel ⊢; omega) hwys
      rw [hZ]
      simp only [parseElemsTail, skipWsL_comma, if_neg (show ¬(',' = ']') from by decide),
        if_pos rfl, if_true, hskip2, hv, ht]

/-- The serialised members of a non-empty object, between the whitespace
after the brace and the closing brace, parse back to the member list. -/
theorem parseFields_dumps : ∀ (fs : List (List Char × JValue)) (ind j : Nat)
    (rest : List Char) (fuel : Nat), fs ≠ [] →
    jfuelFields fs + 2 * fs.length ≤ fuel →
    JValue.wellKeyedFields fs = true →
    parseFields fuel (nlIndent ind ++ (JValue.dumpsFields fs ind
      ++ (nlIndent j ++ (rbrace :: rest)))) = some (fs, rest)
  | [], ind, j, rest, fuel => by
    intro hne _ _
    exact absurd rfl hne
  | (k, v) :: fs, ind, j, rest, fuel => by
    intro _ hfuel hw
    cases fuel with
    | zero => simp [jfuelFields] at hfuel
    | succ f =>
      obtain ⟨hwv, hwfs⟩ : JValue.wellKeyed v = true ∧
          JValue.wellKeyedFields fs = true := by
        simpa [JValue.wellKeyedFields, Bool.and_eq_true] using hw
      have hskip : skipWsL (nlIndent ind ++ (JValue.dumpsFields ((k, v) :: fs) ind
          ++ (nlIndent j ++ (rbrace :: rest))))
          = '"' :: (k.flatMap escapeChar ++ ('"' :: (':' :: ' '
            :: (JValue.dumpsAt v ind ++ (sepFields fs ind
              ++ (nlIndent j ++ (rbrace :: rest))))))) := by
        rw [dumpsFields_eq]
        rw [show (encStr k ++ ':' :: ' ' :: (JValue.dumpsAt v ind ++ sepFields fs ind))
              ++ (nlIndent j ++ (rbrace :: rest))
            = '"' :: (k.flatMap escapeChar ++ ('"' :: (':' :: ' '
              :: (JValue.dumpsAt v ind ++ (sepFields fs ind
                ++ (nlIndent j ++ (rbrace :: rest))))))) from by simp [encStr]]
        rw [skipWsL_nlIndent, skipWsL_quote]
      have hstr := parseStr_encStrBody k (':' :: ' ' :: (JValue.dumpsAt v ind
        ++ (sepFields fs ind ++ (nlIndent j ++ (rbrace :: rest)))))
      have hspace : skipWsL (' ' :: (JValue.dumpsAt v ind ++ (sepFields fs ind
          ++ (nlIndent j ++ (rbrace :: rest)))))
          = JValue.dumpsAt v ind ++ (sepFields fs ind
            ++ (nlIndent j ++ (rbrace :: rest))) := by
        rw [skipWsL_space, skipWsL_dumpsAt]
      have hv : parseValue f (JValue.dumpsAt v ind ++ (sepFields fs ind
          ++ (nlIndent j ++ (rbrace :: rest)))) = some (v, sepFields fs ind
          ++ (nlIndent j ++ (rbrace :: rest))) :=
        parseValue_dumpsAt v ind _ f (by simp [jfuelFields] at hfuel; omega)
          (noDigitHead_sepFields fs ind _ (noDigitHead_nlIndent j _)) hwv
      have ht := parseFieldsTail_dumps fs ind j rest f
        (by simp [jfuelFields] at hfuel ⊢; omega) hwfs
      simp only [parseFields, hskip, if_neg (show ¬('"' = rbrace) from by decide),
        if_pos rfl, if_true, hstr, skipWsL_colon, hspace, hv, ht]

/-- After a serialised member: the remaining members and the closing brace
parse back to the remaining member list. -/
theorem parseFieldsTail_dumps : ∀ (fs : List (List Char × JValue)) (ind j : Nat)
    (rest : List Char) (fuel : Nat),
    jfuelFields fs + 2 * fs.length + 1 ≤ fuel →
    JValue.wellKeyedFields fs = true →
    parseFieldsTail fuel (sepFields fs ind ++ (nlIndent j ++ (rbrace :: rest)))
      = some (fs, rest)
  | [], ind, j, rest, fuel => by
    intro hfuel _
    cases fuel with
    | zero => omega
    | succ f =>
      rw [show sepFields [] ind = [] from rfl, List.nil_append]
      have hskip : skipWsL (nlIndent j ++ (rbrace :: rest)) = rbrace :: rest := by
        rw [skipWsL_nlIndent, skipWsL_cons_of_not rbrace _ (by decide)]
      simp only [parseFieldsTail, hskip, if_pos rfl, if_true]
  | (k, v) :: fs, ind, j, rest, fuel => by
    intro hfuel hw
    cases fuel with
    | zero => simp [jfuelFields] at hfuel
    | succ f =>
      obtain ⟨hwv, hwfs⟩ : JValue.wellKeyed v = true ∧
          JValue.wellKeyedFields fs = true := by
        simpa [JValue.wellKeyedFields, Bool.and_eq_true] using hw
      have hy : jfuel v ≤ f := by simp [jfuelFields] at hfuel; omega
      have hZ : sepFields ((k, v) :: fs) ind ++ (nlIndent j ++ (rbrace :: rest))
          = ',' :: (nlIndent ind ++ ('"' :: (k.flatMap escapeChar ++ ('"' :: (':' :: ' '
            :: (JValue.dumpsAt v ind ++ (sepFields fs ind
              ++ (nlIndent j ++ (rbrace :: rest))))))))) := by
        simp [sepFields, encStr]
      have hskipq : skipWsL (nlIndent ind ++ ('"' :: (k.flatMap escapeChar ++ ('"'
          :: (':' :: ' ' :: (JValue.dumpsAt v ind ++ (sepFields fs ind
            ++ (nlIndent j ++ (rbrace :: rest)))))))))
          = '"' :: (k.flatMap escapeChar ++ ('"' :: (':' :: ' '
            :: (JValue.dumpsAt v ind ++ (sepFields fs ind
              ++ (nlIndent j ++ (rbrace :: rest))))))) := by
        rw [skipWsL_nlIndent, skipWsL_quote]
      have hstr := parseStr_encStrBody k (':' :: ' ' :: (JValue.dumpsAt v ind
        ++ (sepFields fs ind ++ (nlIndent j ++ (rbrace :: rest)))))
      have hspace : skipWsL (' ' :: (JValue.dumpsAt v ind ++ (sepFields fs ind
          ++ (nlIndent j ++ (rbrace :: rest)))))
          = JValue.dumpsAt v ind ++ (sepFields fs ind
            ++ (nlIndent j ++ (rbrace :: rest))) := by
        rw [skipWsL_space, skipWsL_dumpsAt]
      have hv : parseValue f (JValue.dumpsAt v ind ++ (sepFields fs ind
          ++ (nlIndent j ++ (rbrace :: rest)))) = some (v, sepFields fs ind
          ++ (nlIndent j ++ (rbrace :: rest))) :=
        parseValue_dumpsAt v ind _ f hy
          (noDigitHead_sepFields fs ind _ (noDigitHead_nlIndent j _)) hwv
      have ht := parseFieldsTail_dumps fs ind j rest f
        (by simp [jfuelFields] at hfuel ⊢; omega) hwfs
      rw [hZ]
      simp only [parseFieldsTail, skipWsL_comma,
        if_neg (show ¬(',' = rbrace) from by decide), if_pos rfl, if_true, hskipq,
        hstr, skipWsL_colon, hspace, hv, ht]

end

mutual

/-- The parser fuel a value needs is covered by its serialisation's length. -/
theorem jfuel_le_dumpsAt : ∀ (v : JValue) (ind : Nat),
    jfuel v ≤ (JValue.dumpsAt v ind).length + 1
  | .null, ind => by simp [jfuel]
  | .bool true, ind => by simp [jfuel]
  | .bool false, ind => by simp [jfuel]
  | .num n, ind => by simp [jfuel]
  | .str s, ind => by simp [jfuel]
  | .arr [], ind => by simp [jfuel, jfuelList, JValue.dumpsAt, strOf]
  | .arr (x :: xs), ind => by
    have h := jfuelList_le_dumpsElems (x :: xs) (ind + 2) (by simp) (by omega)
    simp only [jfuel, JValue.dumpsAt, List.length_cons, List.length_append, nlIndent,
      List.length_replicate] at h ⊢
    omega
  | .obj [], ind => by simp [jfuel, jfuelFields, JValue.dumpsAt, strOf]
  | .obj (f :: fs), ind => by
    have h := jfuelFields_le_dumpsFields (f :: fs) (ind + 2) (by simp) (by omega)
    obtain ⟨k, v⟩ := f
    simp only [jfuel, JValue.dumpsAt, List.length_cons, List.length_append, nlIndent,
      List.length_replicate] at h ⊢
    omega

theorem jfuelList_le_dumpsElems : ∀ (xs : List JValue) (ind : Nat), xs ≠ [] → 1 ≤ ind →
    jfuelList xs + 2 * xs.length ≤ (JValue.dumpsElems xs ind).length + 3
  | [], ind => by intro h _; exact absurd rfl h
  | [x], ind => by
    intro _ _
    have h := jfuel_le_dumpsAt x ind
    simp only [jfuelList, JValue.dumpsElems, List.length_cons, List.length_nil]
    omega
  | x :: y :: ys, ind => by
    intro _ hind
    have h1 := jfuel_le_dumpsAt x ind
    have h2 := jfuelList_le_dumpsElems (y :: ys) ind (by simp) hind
    simp only [jfuelList, JValue.dumpsElems, List.length_cons, List.length_append,
      nlIndent, List.length_replicate] at h2 ⊢
    omega

theorem jfuelFields_le_dumpsFields : ∀ (fs : List (List Char × JValue)) (ind : Nat),
    fs ≠ [] → 1 ≤ ind →
    jfuelFields fs + 2 * fs.length ≤ (JValue.dumpsFields fs ind).length + 3
  | [], ind => by intro h _; exact absurd rfl h
  | [(k, v)], ind => by
    intro _ _
    have h := jfuel_le_dumpsAt v ind
    simp only [jfuelFields, JValue.dumpsFields, List.length_cons, List.length_nil,
      List.length_append]
    omega
  | (k, v) :: f :: fs, ind => by
    intro _ hind
    have h1 := jfuel_le_dumpsAt v ind
    have h2 := jfuelFields_le_dumpsFields (f :: fs) ind (by simp) hind
    simp only [jfuelFields, JValue.dumpsFields, List.length_cons, List.length_append,
      nlIndent, List.length_replicate] at h2 ⊢
    omega

end

/-- One iteration of the load loop only looks at the whitespace-skipped text. -/
theorem loadRecordsLoop_congr (f : Nat) (X Y : List Char) (h : skipWsL X = skipWsL Y) :
    loadRecordsLoop (f + 1) X = loadRecordsLoop (f + 1) Y := by
  rw [loadRecordsLoop, loadRecordsLoop, h]

theorem save_length_pos (r : JValue) : 2 ≤ (ResponseCollector.save r).length := by
  simp [ResponseCollector.save, strOf]

/-- A concatenation of saved records parses back to the record list. -/
theorem loadRecordsLoop_saves : ∀ (rs : List JValue) (fuel : Nat),
    rs.length < fuel → (∀ r ∈ rs, JValue.wellKeyed r = true) →
    loadRecordsLoop fuel ((rs.map ResponseCollector.save).flatten) = some rs := by
  intro rs
  induction rs with
  | nil =>
    intro fuel hf _
    cases fuel with
    | zero => omega
    | succ f => simp [loadRecordsLoop, skipWsL]
  | cons r rs ih =>
    intro fuel hf hw
    cases fuel with
    | zero => omega
    | succ f =>
      have hrep : (((r :: rs).map ResponseCollector.save).flatten)
          = JValue.dumps r ++ ('\n' :: '\n' :: (rs.map ResponseCollector.save).flatten) := by
        simp [ResponseCollector.save, strOf]
      have hskip : skipWsL (JValue.dumps r ++ ('\n' :: '\n'
          :: (rs.map ResponseCollector.save).flatten))
          = JValue.dumps r ++ ('\n' :: '\n' :: (rs.map ResponseCollector.save).flatten) :=
        skipWsL_dumpsAt r 0 _
      obtain ⟨c, s, hcs, hc⟩ := dumpsAt_head_shape r 0
      have hraw : rawDecode (JValue.dumps r ++ ('\n' :: '\n'
          :: (rs.map ResponseCollector.save).flatten))
          = some (r, '\n' :: '\n' :: (rs.map ResponseCollector.save).flatten) := by
        rw [rawDecode]
        apply parseValue_dumpsAt r 0 _ _ ?_ (by simp [noDigitHead]) (hw r (by simp))
        have h1 := jfuel_le_dumpsAt r 0
        simp only [JValue.dumps, List.length_append]
        omega
      have hloop : loadRecordsLoop f ('\n' :: '\n'
          :: (rs.map ResponseCollector.save).flatten)
          = some rs := by
        cases f with
        | zero => simp only [List.length_cons] at hf; omega
        | succ f2 =>
          rw [loadRecordsLoop_congr f2 _ ((rs.map ResponseCollector.save).flatten) ?_]
          · exact ih (f2 + 1) (by simpa using hf) (fun q hq => hw q (by simp [hq]))
          · rw [show ('\n' :: '\n' :: (rs.map ResponseCollector.save).flatten)
                = ['\n', '\n'] ++ (rs.map ResponseCollector.save).flatten from rfl]
            rw [skipWsL_append _ _ (by intro c hc; simp at hc; rw [hc]; rfl)]
      have hdc : JValue.dumps r = c :: s := hcs
      have hskipc : skipWsL (c :: (s ++ ('\n' :: '\n'
            :: (rs.map ResponseCollector.save).flatten)))
          = c :: (s ++ ('\n' :: '\n' :: (rs.map ResponseCollector.save).flatten)) :=
        skipWsL_cons_of_not _ _ (head_shape_consequences hc).1
      have hraw2 : rawDecode (c :: (s ++ ('\n' :: '\n'
            :: (rs.map ResponseCollector.save).flatten)))
          = some (r, '\n' :: '\n' :: (rs.map ResponseCollector.save).flatten) := by
        rw [← List.cons_append, ← hdc]; exact hraw
      simp only [hrep, hdc, List.cons_append, loadRecordsLoop, hskipc, hraw2, hloop]

theorem collectorSession_eq_flatten : ∀ (init : List Char) (rs : List JValue),
    collectorSession init rs = init ++ (rs.map ResponseCollector.save).flatten
  | init, [] => by simp [collectorSession]
  | init, r :: rs => by
    have h := collectorSession_eq_flatten (init ++ ResponseCollector.save r) rs
    have hstep : collectorSession init (r :: rs)
        = collectorSession (init ++ ResponseCollector.save r) rs := rfl
    rw [hstep, h]
    simp [List.append_assoc]

theorem flatten_saves_length (rs : List JValue) :
    rs.length ≤ ((rs.map ResponseCollector.save).flatten).length := by
  induction rs with
  | nil => simp
  | cons r rs ih =>
    have h := save_length_pos r
    simp only [List.map_cons, List.flatten_cons, List.length_append, List.length_cons]
    omega

/-- C7: round-trip — a sequence of records written into an initially empty
file by `ResponseCollector.save` is re-parsed by the whitespace-tolerant
multi-record reader `_load_records` to exactly the same sequence of records
in order; in particular each re-parsed record's fields equal the original's.
The hypothesis states that each record is a well-formed value in which every
object has distinct keys, which holds of every serialised Python dict. -/
theorem c7_save_load_roundtrip (records : List JValue)
    (h : ∀ r ∈ records, JValue.wellKeyed r = true) :
    _load_records (collectorSession [] records) = some records := by
  rw [collectorSession_eq_flatten, List.nil_append, _load_records]
  exact loadRecordsLoop_saves records _
    (by have := flatten_saves_length records; omega) h

def c7Records : List JValue :=
  [.obj [(strOf "run_id", .str (strOf "r1")),
         (strOf "response", .str (strOf "hi there")),
         (strOf "logprobs", .null),
         (strOf "usage", .obj [(strOf "total_tokens", .num 7)])],
   .obj [(strOf "run_id", .str (strOf "r1")),
         (strOf "response", .null),
         (strOf "logprobs", .arr [.num (-2), .num 0])]]

theorem c7_save_load_roundtrip_witness :
    _load_records (collectorSession [] c7Records) = some c7Records :=
  c7_save_load_roundtrip c7Records (by decide)

/-! ## `load_prompts` (src/src/prompts.py) -/

/-- The ways `load_prompts` can fail: a `json.JSONDecodeError` is caught and
re-raised as `ValueError(f"Invalid JSON in \x7bpath\x7d at position \x7bpos\x7d: ...")`
carrying the post-whitespace-skip position, while `obj["id"]` on a dict
missing the key raises a bare `KeyError("id")` (not caught, no position) and
subscripting a non-dict raises a `TypeError` (not caught either). -/
inductive LoadErr where
  | invalidJson (pos : Nat)
  | keyError (key : List Char)
  | typeError
deriving DecidableEq

/-- The `PromptTemplate` as `load_prompts` actually builds it: the dataclass
performs no type validation, so each field stores the JSON value verbatim
(`variables` defaults to `\x7b\x7d`, `logprobs` to `None`). The source calls the
fourth field `variables`. -/
structure LoadedTemplate where
  id : JValue
  system : JValue
  user : JValue
  vars : JValue
  logprobs : JValue
deriving DecidableEq

/-- Python subscription `obj[key]`: value for dicts that bind the key,
`KeyError` for dicts that do not, `TypeError` otherwise. -/
def pySubscript (v : JValue) (key : List Char) : Except LoadErr JValue :=
  match v with
  | .obj fields =>
    match List.lookup key fields with
    | some x => .ok x
    | none => .error (.keyError key)
  | _ => .error .typeError

/-- Building one `PromptTemplate(id=obj["id"], system=obj["system"],
user=obj["user"], variables=obj.get("variables", \x7b\x7d),
logprobs=obj.get("logprobs"))`; keyword arguments evaluate left to right, so
a missing `id` is reported first. -/
def templateOfJson (v : JValue) : Except LoadErr LoadedTemplate :=
  match pySubscript v (strOf "id") with
  | .error e => .error e
  | .ok i =>
    match pySubscript v (strOf "system") with
    | .error e => .error e
    | .ok s =>
      match pySubscript v (strOf "user") with
      | .error e => .error e
      | .ok u =>
        match v with
        | .obj fields =>
          .ok { id := i, system := s, user := u,
                vars := (List.lookup (strOf "variables") fields).getD (.obj []),
                logprobs := dictGet fields (strOf "logprobs") }
        | _ => .error .typeError

/-- The `while pos < len(text)` loop of `load_prompts`: skip whitespace, stop
at end of text, `raw_decode` at the skipped position (wrapping a decode error
into the positional `ValueError`), build the template, continue at the decode
end position.  Fuelled: each iteration consumes at least one character, so
fuel `length + 1` never runs out. -/
def loadPromptsLoop : Nat → List Char → Nat → Except LoadErr (List LoadedTemplate)
  | 0, _, pos => .error (.invalidJson pos)
  | fuel + 1, cs, pos =>
    match skipWsL cs with
    | [] => .ok []
    | c :: rest =>
      match rawDecode (c :: rest) with
      | none => .error (.invalidJson (pos + (cs.length - (skipWsL cs).length)))
      | some (v, remaining) =>
        match templateOfJson v with
        | .error e => .error e
        | .ok t =>
          match loadPromptsLoop fuel remaining (pos + (cs.length - remaining.length)) with
          | .ok ts => .ok (t :: ts)
          | .error e => .error e

/-- `load_prompts` over the file contents. -/
def load_prompts (text : List Char) : Except LoadErr (List LoadedTemplate) :=
  loadPromptsLoop (text.length + 1) text 0

example : load_prompts (strOf " \n5x") = .error .typeError := by decide

/-- A file laid out as whitespace, record, whitespace, record, ...,
optionally ending in whitespace — the shape `load_prompts` is specified to
tolerate. -/
inductive WsChain : List JValue → List Char → Prop where
  | nil (pad : List Char) (hpad : ∀ c ∈ pad, isJsonWs c = true) : WsChain [] pad
  | cons (pad : List Char) (o : JValue) (os : List JValue) (rest : List Char)
      (hpad : ∀ c ∈ pad, isJsonWs c = true) (htail : WsChain os rest) :
      WsChain (o :: os) (pad ++ (JValue.dumps o ++ rest))

theorem isJsonWs_not_digit (c : Char) (h : isJsonWs c = true) : c.isDigit = false := by
  simp only [isJsonWs, Bool.or_eq_true, decide_eq_true_eq] at h
  rcases h with ((rfl | rfl) | rfl) | rfl <;> decide

theorem dumps_obj_head (fs : List (List Char × JValue)) :
    ∃ s, JValue.dumps (.obj fs) = lbrace :: s := by
  cases fs with
  | nil => exact ⟨[rbrace], rfl⟩
  | cons f fs =>
    obtain ⟨k, v⟩ := f
    exact ⟨_, rfl⟩

theorem ws_noDigitHead (pad : List Char) (hpad : ∀ c ∈ pad, isJsonWs c = true) :
    noDigitHead pad := by
  cases pad with
  | nil => trivial
  | cons c cs => exact isJsonWs_not_digit c (hpad c (by simp))

theorem wsChain_noDigitHead (os : List JValue) (text : List Char)
    (h : WsChain os text) (hobj : ∀ o ∈ os, ∃ fs, o = JValue.obj fs) :
    noDigitHead text := by
  cases h with
  | nil p hp => exact ws_noDigitHead text hp
  | cons pad o os2 rest hpad htail =>
    cases pad with
    | cons c cs => exact isJsonWs_not_digit c (hpad c (by simp))
    | nil =>
      obtain ⟨fs, rfl⟩ := hobj o (by simp)
      obtain ⟨s, hs⟩ := dumps_obj_head fs
      simp only [List.nil_append, JValue.dumps] at hs ⊢
      rw [hs]
      show lbrace.isDigit = false
      decide

theorem forall₂_exists_of_mem {α β : Type} {R : α → β → Prop} :
    ∀ {xs : List α} {ys : List β}, List.Forall₂ R xs ys → ∀ x ∈ xs, ∃ y, R x y := by
  intro xs ys h
  induction h with
  | nil => intro x hx; cases hx
  | cons hr ht ih =>
    intro x hx
    rcases List.mem_cons.mp hx with rfl | hx2
    · exact ⟨_, hr⟩
    · exact ih x hx2

theorem templateOfJson_ok_obj (v : JValue) (t : LoadedTemplate)
    (h : templateOfJson v = .ok t) : ∃ fs, v = JValue.obj fs := by
  cases v with
  | obj fs => exact ⟨fs, rfl⟩
  | null => simp [templateOfJson, pySubscript] at h
  | bool b => simp [templateOfJson, pySubscript] at h
  | num n => simp [templateOfJson, pySubscript] at h
  | str s => simp [templateOfJson, pySubscript] at h
  | arr xs => simp [templateOfJson, pySubscript] at h

theorem parseValue_bad_start (fuel : Nat) (rest : List Char) :
    parseValue fuel ('<' :: rest) = none := by
  cases fuel with
  | zero => rfl
  | succ f => rfl

/-- Success path of the loading loop over a whitespace-interleaved file. -/
theorem loadPromptsLoop_chain (objs : List JValue) (text : List Char)
    (hchain : WsChain objs text) :
    ∀ (ts : List LoadedTemplate),
    (∀ o ∈ objs, JValue.wellKeyed o = true) →
    List.Forall₂ (fun o t => templateOfJson o = Except.ok t) objs ts →
    ∀ fuel pos, objs.length < fuel →
    loadPromptsLoop fuel text pos = .ok ts := by
  induction hchain with
  | nil pad hpad =>
    intro ts _ hts fuel pos hf
    cases hts
    cases fuel with
    | zero => omega
    | succ f =>
      rw [loadPromptsLoop]
      rw [show skipWsL pad = skipWsL [] from by
        rw [show pad = pad ++ ([] : List Char) from by simp]
        exact skipWsL_append pad [] hpad]
      rfl
  | cons pad o os rest hpad htail ih =>
    intro ts hwk hts fuel pos hf
    cases hts with
    | cons ht hts2 =>
    rename_i t ts2
    cases fuel with
    | zero => simp only [List.length_cons] at hf; omega
    | succ f =>
      have hobjs : ∀ q ∈ os, ∃ fs, q = JValue.obj fs := by
        intro q hq
        obtain ⟨t2, hqt⟩ := forall₂_exists_of_mem hts2 q hq
        exact templateOfJson_ok_obj q t2 hqt
      have hnd : noDigitHead rest := wsChain_noDigitHead os rest htail hobjs
      have hskip : skipWsL (pad ++ (JValue.dumps o ++ rest))
          = JValue.dumps o ++ rest := by
        rw [skipWsL_append pad _ hpad]
        exact skipWsL_dumpsAt o 0 rest
      obtain ⟨c, s, hcs, hc⟩ := dumpsAt_head_shape o 0
      have hdc : JValue.dumps o = c :: s := hcs
      have hraw : rawDecode (c :: (s ++ rest)) = some (o, rest) := by
        rw [← List.cons_append, ← hdc, rawDecode]
        apply parseValue_dumpsAt o 0 _ _ ?_ hnd (hwk o (by simp))
        have h1 := jfuel_le_dumpsAt o 0
        simp only [JValue.dumps, List.length_append]
        omega
      have hloop : loadPromptsLoop f rest
          (pos + ((pad ++ (JValue.dumps o ++ rest)).length - rest.length))
          = .ok ts2 :=
        ih ts2 (fun q hq => hwk q (by simp [hq])) hts2 f _
          (by simp only [List.length_cons] at hf; omega)
      have hskip2 : skipWsL (pad ++ (JValue.dumps o ++ rest))
          = c :: (s ++ rest) := by rw [hskip, hdc, List.cons_append]
      rw [loadPromptsLoop]
      simp only [hskip2, hraw, ht, hloop]

theorem wsChain_length (os : List JValue) (text : List Char)
    (h : WsChain os text) : os.length ≤ text.length := by
  induction h with
  | nil p hp => simp
  | cons pad o os2 rest hpad htail ih =>
    obtain ⟨c, s, hcs, _⟩ := dumpsAt_head_shape o 0
    have : JValue.dumps o = c :: s := hcs
    simp only [List.length_cons, List.length_append, this]
    omega

theorem loadPrompts_badStart (pad bad : List Char)
    (hpad : ∀ c ∈ pad, isJsonWs c = true) :
    load_prompts (pad ++ '<' :: bad) = .error (.invalidJson pad.length) := by
  have hskip : skipWsL (pad ++ '<' :: bad) = '<' :: bad := by
    rw [skipWsL_append pad _ hpad]
    exact skipWsL_cons_of_not '<' bad (by decide)
  have hraw : rawDecode ('<' :: bad) = none := by
    rw [rawDecode]; exact parseValue_bad_start _ bad
  have hpos : 0 + ((pad ++ '<' :: bad).length - ('<' :: bad).length)
      = pad.length := by
    simp
  rw [load_prompts, loadPromptsLoop]
  simp only [hskip, hraw, hpos]

theorem loadPrompts_missingId (pad : List Char) (fields : List (List Char × JValue))
    (hpad : ∀ c ∈ pad, isJsonWs c = true)
    (hnoid : List.lookup (strOf "id") fields = none)
    (hwkf : JValue.wellKeyed (JValue.obj fields) = true) :
    load_prompts (pad ++ JValue.dumps (.obj fields)) = .error (.keyError (strOf "id")) := by
  have hskip : skipWsL (pad ++ JValue.dumps (.obj fields))
      = JValue.dumps (.obj fields) := by
    rw [skipWsL_append pad _ hpad]
    have h := skipWsL_dumpsAt (.obj fields) 0 []
    simpa [JValue.dumps] using h
  obtain ⟨s, hs⟩ := dumps_obj_head fields
  have hraw : rawDecode (lbrace :: s) = some (.obj fields, []) := by
    rw [← hs, rawDecode]
    have h := parseValue_dumpsAt (.obj fields) 0 [] ((JValue.dumps (.obj fields)).length + 1)
      ?_ trivial hwkf
    · simpa [JValue.dumps] using h
    · have h1 := jfuel_le_dumpsAt (.obj fields) 0
      simp only [JValue.dumps]
      omega
  have htj : templateOfJson (.obj fields) = .error (.keyError (strOf "id")) := by
    simp [templateOfJson, pySubscript, hnoid]
  have hskip2 : skipWsL (pad ++ JValue.dumps (.obj fields)) = lbrace :: s := by
    rw [hskip, hs]
  rw [load_prompts, loadPromptsLoop]
  simp only [hskip2, hraw, htj]

/-- C6: `load_prompts` tolerates arbitrary whitespace and blank lines around
and between the JSON records, loading each record into a template; an
embedded object that is malformed JSON raises the descriptive
`ValueError` naming the file position of the offending character (the
position after the skipped whitespace); but a record that is valid JSON
while missing the required field `id` raises a bare `KeyError` naming only
the missing key — that error does not name a file position. -/
theorem c6_load_prompts
    (objs : List JValue) (ts : List LoadedTemplate) (text : List Char)
    (pad bad : List Char) (fields : List (List Char × JValue))
    (hchain : WsChain objs text)
    (hwk : ∀ o ∈ objs, JValue.wellKeyed o = true)
    (hts : List.Forall₂ (fun o t => templateOfJson o = Except.ok t) objs ts)
    (hpad : ∀ c ∈ pad, isJsonWs c = true)
    (hnoid : List.lookup (strOf "id") fields = none)
    (hwkf : JValue.wellKeyed (JValue.obj fields) = true) :
    load_prompts text = .ok ts
    ∧ load_prompts (pad ++ '<' :: bad) = .error (.invalidJson pad.length)
    ∧ load_prompts (pad ++ JValue.dumps (.obj fields))
        = .error (.keyError (strOf "id")) := by
  refine ⟨?_, loadPrompts_badStart pad bad hpad,
    loadPrompts_missingId pad fields hpad hnoid hwkf⟩
  rw [load_prompts]
  exact loadPromptsLoop_chain objs text hchain ts hwk hts _ 0
    (by have := wsChain_length objs text hchain; omega)

/-- A record that is perfectly valid JSON but lacks the required `id` field:
`load_prompts` raises a bare `KeyError("id")` — an error that carries the
missing key only, not a file position, unlike the wrapped decode error. -/
theorem c6_counterexample :
    load_prompts (JValue.dumps (.obj [(strOf "system", .str (strOf "s")),
        (strOf "user", .str (strOf "u"))]))
      = .error (.keyError (strOf "id")) := by decide

def c6Obj : JValue :=
  .obj [(strOf "id", .str (strOf "t1")),
        (strOf "system", .str (strOf "sys")),
        (strOf "user", .str (strOf "usr"))]

def c6Template : LoadedTemplate :=
  { id := .str (strOf "t1"), system := .str (strOf "sys"),
    user := .str (strOf "usr"), vars := .obj [], logprobs := .null }

theorem c6_load_prompts_witness :
    load_prompts (strOf " \n" ++ (JValue.dumps c6Obj ++ strOf "\n\n"))
        = .ok [c6Template]
    ∧ load_prompts (strOf "\t" ++ '<' :: strOf "rest") = .error (.invalidJson 1)
    ∧ load_prompts (strOf "\t" ++ JValue.dumps (.obj [(strOf "user", .str (strOf "u"))]))
        = .error (.keyError (strOf "id")) :=
  c6_load_prompts [c6Obj] [c6Template] _ (strOf "\t") (strOf "rest")
    [(strOf "user", .str (strOf "u"))]
    (WsChain.cons (strOf " \n") c6Obj [] (strOf "\n\n") (by decide)
      (WsChain.nil (strOf "\n\n") (by decide)))
    (by decide)
    (List.Forall₂.cons (by decide) List.Forall₂.nil)
    (by decide) (by decide) (by decide)

/-! ## The visualizer: `render` (src/visualizer/visualize.py) -/

/-- Exceptions that can escape `render`: `.get` on a non-dict raises
`AttributeError`; the figure-building loop raises `KeyError`/`TypeError`
(collapsed into one constructor, since no part of the program
distinguishes them) when a record's content is not shaped as a list of
dicts with string `token` and numeric `logprob` entries. -/
inductive VizErr where
  | attributeError
  | gridError
deriving DecidableEq

/-- The `--output` argument: `output.with_name(f"...")` replaces only the
final path component, so `stem` here stands for the output path up to the
extension (directory plus `Path.stem`) and `suffix` for `Path.suffix`
(empty when the name has no extension). -/
structure OutPath where
  stem : List Char
  suffix : List Char
deriving DecidableEq

/-- One observable step of the render loop: a skip diagnostic on stderr, a
figure displayed with `plt.show()`, or a figure saved to a path with the
`Saved: ...` line on stdout.  Each event carries the record it came from. -/
inductive VizEvent where
  | skippedEmpty (record : JValue) (stderrLine : List Char)
  | shown (record : JValue)
  | saved (record : JValue) (path : List Char) (stdoutLine : List Char)
deriving DecidableEq

def VizEvent.source : VizEvent → JValue
  | .skippedEmpty r _ => r
  | .shown r => r
  | .saved r _ _ => r

/-- `render` either terminates the process (`sys.exit(1)` after printing the
no-data line to stderr) or completes, having produced the events. -/
inductive RenderResult where
  | exit (stderrLine : List Char) (status : Nat)
  | done (events : List VizEvent)
deriving DecidableEq

/-- Python `record.get(key)`: `None` default on dicts, `AttributeError` on
anything else. -/
def pyGetAttr (r : JValue) (k : List Char) : Except VizErr JValue :=
  match r with
  | .obj fields => .ok (dictGet fields k)
  | _ => .error .attributeError

/-- `lp_records = [r for r in records if r.get("logprobs")]`. -/
def filterLp : List JValue → Except VizErr (List JValue)
  | [] => .ok []
  | r :: rs =>
    match pyGetAttr r (strOf "logprobs") with
    | .error e => .error e
    | .ok v =>
      match filterLp rs with
      | .error e => .error e
      | .ok rest => .ok (if v.truthy then r :: rest else rest)

/-- `content = (record.get("logprobs") or \x7b\x7d).get("content") or []`. -/
def contentOf (record : JValue) : Except VizErr JValue :=
  match pyGetAttr record (strOf "logprobs") with
  | .error e => .error e
  | .ok lpv =>
    match pyGetAttr (if lpv.truthy then lpv else .obj []) (strOf "content") with
    | .error e => .error e
    | .ok cv => .ok (if cv.truthy then cv else .arr [])

/-- An entry of a `top_logprobs` list: the cell loop reads `alt["token"]`
(later `.replace`d, so a string) and `math.exp(alt["logprob"])` (a number). -/
def checkAlt : JValue → Bool
  | .obj fs =>
    (match List.lookup (strOf "token") fs with
     | some (.str _) => true
     | _ => false)
    && (match List.lookup (strOf "logprob") fs with
        | some (.num _) => true
        | _ => false)
  | _ => false

/-- A position of `content`: the grid reads `pos["top_logprobs"]` (a list of
cells) and `pos["token"].replace(...)` (a string). -/
def checkPos : JValue → Bool
  | .obj fs =>
    (match List.lookup (strOf "top_logprobs") fs with
     | some (.arr alts) => alts.all checkAlt
     | _ => false)
    && (match List.lookup (strOf "token") fs with
        | some (.str _) => true
        | _ => false)
  | _ => false

/-- Whether the figure build (`len(content)`, the `max` over positions, the
cell loops and the axis labels) runs without raising. -/
def checkContent : JValue → Bool
  | .arr poss => poss.all checkPos
  | _ => false

/-- The `Skipping record \x7b...\x7d — empty content.` stderr line; the f-string
renders `record.get("prompt_id")` with `str`. -/
def skipDiag (fields : List (List Char × JValue)) : List Char :=
  strOf "Skipping record " ++ pyStr (dictGet fields (strOf "prompt_id"))
    ++ strOf " — empty content."

/-- `list.index(record)`: position of the first element equal to the value. -/
def listIndex (x : JValue) : List JValue → Nat
  | [] => 0
  | y :: ys => if y = x then 0 else listIndex x ys + 1

/-- The path a record is saved to:
`output.with_name(f"\x7boutput.stem\x7d_\x7bidx\x7d\x7boutput.suffix or \x27.png\x27\x7d")`
when more than one record qualifies, the plain output path otherwise. -/
def savePath (lp : List JValue) (o : OutPath) (record : JValue) : List Char :=
  if 1 < lp.length then
    o.stem ++ strOf "_" ++ natRepr (listIndex record lp)
      ++ (if o.suffix.isEmpty then strOf ".png" else o.suffix)
  else o.stem ++ o.suffix

/-- One iteration of the `for record in lp_records` loop. -/
def renderEntry (lp : List JValue) (output : Option OutPath) (record : JValue) :
    Except VizErr VizEvent :=
  match contentOf record with
  | .error e => .error e
  | .ok content =>
    if content.truthy = false then
      match record with
      | .obj fields => .ok (.skippedEmpty record (skipDiag fields))
      | _ => .error .attributeError
    else if checkContent content then
      match output with
      | none => .ok (.shown record)
      | some o =>
        .ok (.saved record (savePath lp o record)
          (strOf "Saved: " ++ savePath lp o record))
    else .error .gridError

def renderLoop (lp : List JValue) (output : Option OutPath) :
    List JValue → Except VizErr (List VizEvent)
  | [] => .ok []
  | r :: rs =>
    match renderEntry lp output r with
    | .error e => .error e
    | .ok ev =>
      match renderLoop lp output rs with
      | .error e => .error e
      | .ok evs => .ok (ev :: evs)

/-- `render(records, output)`. -/
def render (records : List JValue) (output : Option OutPath) :
    Except VizErr RenderResult :=
  match filterLp records with
  | .error e => .error e
  | .ok lp =>
    if lp.isEmpty then
      .ok (.exit (strOf "No records with logprobs data found.") 1)
    else
      match renderLoop lp output lp with
      | .error e => .error e
      | .ok evs => .ok (.done evs)

theorem filterLp_none (records : List JValue)
    (h : ∀ r ∈ records, ∃ fs, r = JValue.obj fs
      ∧ (dictGet fs (strOf "logprobs")).truthy = false) :
    filterLp records = .ok [] := by
  induction records with
  | nil => rfl
  | cons r rs ih =>
    obtain ⟨fs, heq, hfalse⟩ := h r (by simp)
    subst heq
    rw [filterLp]
    simp only [pyGetAttr, ih (fun q hq => h q (by simp [hq])), hfalse]
    rfl

/-- C10: when no record carries log-probability data — every record is a
dict whose `logprobs` entry is missing or falsy — `render` prints
`No records with logprobs data found.` to stderr and terminates the process
with exit status 1 instead of returning normally. -/
theorem c10_no_data_exit (records : List JValue) (output : Option OutPath)
    (h : ∀ r ∈ records, ∃ fs, r = JValue.obj fs
      ∧ (dictGet fs (strOf "logprobs")).truthy = false) :
    render records output
      = .ok (.exit (strOf "No records with logprobs data found.") 1) := by
  rw [render]
  simp only [filterLp_none records h, List.isEmpty_nil, if_true]

theorem c10_no_data_exit_witness :
    render [JValue.obj [(strOf "response", .str (strOf "hello"))],
            JValue.obj [(strOf "logprobs", .null)]] none
      = .ok (.exit (strOf "No records with logprobs data found.") 1) :=
  c10_no_data_exit _ none (by
    intro r hr
    rcases List.mem_cons.mp hr with rfl | hr2
    · exact ⟨_, rfl, by decide⟩
    rcases List.mem_cons.mp hr2 with rfl | hr3
    · exact ⟨_, rfl, by decide⟩
    cases hr3)

theorem listIndex_inj (x y : JValue) : ∀ (l : List JValue), x ∈ l → y ∈ l →
    listIndex x l = listIndex y l → x = y := by
  intro l
  induction l with
  | nil => intro hx _ _; cases hx
  | cons z zs ih =>
    intro hx hy h
    by_cases hzx : z = x
    · by_cases hzy : z = y
      · rw [← hzx, hzy]
      · rw [listIndex, if_pos hzx, listIndex, if_neg hzy] at h
        omega
    · by_cases hzy : z = y
      · rw [listIndex, if_neg hzx, listIndex, if_pos hzy] at h
        omega
      · rw [listIndex, if_neg hzx, listIndex, if_neg hzy] at h
        have hx2 : x ∈ zs := by
          rcases List.mem_cons.mp hx with rfl | h2
          · exact absurd rfl hzx
          · exact h2
        have hy2 : y ∈ zs := by
          rcases List.mem_cons.mp hy with rfl | h2
          · exact absurd rfl hzy
          · exact h2
        exact ih hx2 hy2 (by omega)

theorem renderEntry_saved (lp : List JValue) (o : OutPath) (q r : JValue)
    (p line : List Char)
    (h : renderEntry lp (some o) q = .ok (.saved r p line)) :
    r = q ∧ p = savePath lp o q := by
  unfold renderEntry at h
  rcases hc : contentOf q with e | content
  · simp [hc] at h
  · simp only [hc] at h
    by_cases ht : content.truthy = false
    · rw [if_pos ht] at h
      cases q with
      | obj fields => simp at h
      | null => cases h
      | bool b => cases h
      | num n => cases h
      | str s => cases h
      | arr xs => cases h
    · rw [if_neg ht] at h
      by_cases hcc : checkContent content = true
      · rw [if_pos hcc] at h
        simp only [Except.ok.injEq, VizEvent.saved.injEq] at h
        exact ⟨h.1.symm, h.2.1.symm⟩
      · rw [if_neg hcc] at h
        cases h

theorem renderLoop_saved (lp : List JValue) (o : OutPath) :
    ∀ (rs : List JValue) (evs : List VizEvent),
    renderLoop lp (some o) rs = .ok evs →
    ∀ (r : JValue) (p line : List Char), VizEvent.saved r p line ∈ evs →
    r ∈ rs ∧ p = savePath lp o r := by
  intro rs
  induction rs with
  | nil =>
    intro evs h r p line hmem
    rw [renderLoop] at h
    cases h
    cases hmem
  | cons q qs ih =>
    intro evs h r p line hmem
    rw [renderLoop] at h
    rcases he : renderEntry lp (some o) q with e | ev
    · rw [he] at h; cases h
    · rw [he] at h
      rcases hl : renderLoop lp (some o) qs with e | evs2
      · rw [hl] at h; cases h
      · rw [hl] at h
        cases h
        rcases List.mem_cons.mp hmem with heq | hmem2
        · obtain ⟨hr, hp⟩ := renderEntry_saved lp o q r p line (heq ▸ he)
          subst hr
          exact ⟨by simp, hp⟩
        · obtain ⟨hr, hp⟩ := ih evs2 hl r p line hmem2
          exact ⟨by simp [hr], hp⟩

theorem render_done (records : List JValue) (output : Option OutPath)
    (evs : List VizEvent) (h : render records output = .ok (.done evs)) :
    ∃ lp, filterLp records = .ok lp ∧ renderLoop lp output lp = .ok evs := by
  unfold render at h
  rcases hf : filterLp records with e | lp
  · simp [hf] at h
  · simp only [hf] at h
    by_cases hemp : lp.isEmpty
    · rw [if_pos hemp] at h; simp at h
    · rw [if_neg hemp] at h
      rcases hl : renderLoop lp output lp with e | evs2
      · rw [hl] at h; cases h
      · rw [hl] at h
        simp only [Except.ok.injEq, RenderResult.done.injEq] at h
        exact ⟨lp, rfl, by rw [hl, h]⟩

/-- C8: with an output path given, any two distinct records that the render
loop saves go to distinct filenames — the suffixed name embeds
`lp_records.index(record)`, which is injective on distinct values — so no
saved image overwrites another record's image. -/
theorem c8_distinct_save_paths (records : List JValue) (o : OutPath)
    (evs : List VizEvent) (r1 r2 : JValue) (p1 p2 line1 line2 : List Char)
    (hrun : render records (some o) = .ok (.done evs))
    (h1 : VizEvent.saved r1 p1 line1 ∈ evs)
    (h2 : VizEvent.saved r2 p2 line2 ∈ evs)
    (hne : r1 ≠ r2) :
    p1 ≠ p2 := by
  obtain ⟨lp, hf, hl⟩ := render_done records (some o) evs hrun
  obtain ⟨hm1, hp1⟩ := renderLoop_saved lp o lp evs hl r1 p1 line1 h1
  obtain ⟨hm2, hp2⟩ := renderLoop_saved lp o lp evs hl r2 p2 line2 h2
  subst hp1
  subst hp2
  by_cases hlen : 1 < lp.length
  · simp only [savePath, if_pos hlen]
    intro heq
    apply hne
    apply listIndex_inj r1 r2 lp hm1 hm2
    rw [List.append_assoc, List.append_assoc, List.append_assoc, List.append_assoc]
      at heq
    have heq2 := List.append_cancel_left (List.append_cancel_left heq)
    have hlen2 : (natRepr (listIndex r1 lp)).length
        = (natRepr (listIndex r2 lp)).length := by
      have hc := congrArg List.length heq2
      simp only [List.length_append] at hc
      omega
    exact natRepr_injective (List.append_inj heq2 hlen2).1
  · exfalso
    apply hne
    cases lp with
    | nil => cases hm1
    | cons a as =>
      cases as with
      | nil =>
        have e1 : r1 = a := by simpa using hm1
        have e2 : r2 = a := by simpa using hm2
        rw [e1, e2]
      | cons b bs =>
        exact absurd (by simp only [List.length_cons]; omega) hlen

def c8Alt : JValue :=
  .obj [(strOf "token", .str (strOf "x")), (strOf "logprob", .num (-1))]

def c8Pos : JValue :=
  .obj [(strOf "top_logprobs", .arr [c8Alt]), (strOf "token", .str (strOf "x"))]

def c8RecA : JValue :=
  .obj [(strOf "prompt_id", .str (strOf "a")),
        (strOf "logprobs", .obj [(strOf "content", .arr [c8Pos])])]

def c8RecB : JValue :=
  .obj [(strOf "prompt_id", .str (strOf "b")),
        (strOf "logprobs", .obj [(strOf "content", .arr [c8Pos])])]

theorem c8_distinct_save_paths_witness :
    strOf "out_0.png" ≠ strOf "out_1.png" :=
  c8_distinct_save_paths [c8RecA, c8RecB] ⟨strOf "out", strOf ".png"⟩
    [.saved c8RecA (strOf "out_0.png") (strOf "Saved: out_0.png"),
     .saved c8RecB (strOf "out_1.png") (strOf "Saved: out_1.png")]
    c8RecA c8RecB (strOf "out_0.png") (strOf "out_1.png")
    (strOf "Saved: out_0.png") (strOf "Saved: out_1.png")
    (by decide) (by decide) (by decide) (by decide)

/-- The comprehension filter `r.get("logprobs")` as a Boolean on dicts
(non-dicts raise instead, so they never reach the filtered list). -/
def keepLp : JValue → Bool
  | .obj fs => (dictGet fs (strOf "logprobs")).truthy
  | _ => false

theorem filterLp_ok_filter : ∀ (records lp : List JValue),
    filterLp records = .ok lp → lp = records.filter keepLp := by
  intro records
  induction records with
  | nil =>
    intro lp h
    rw [filterLp] at h
    cases h
    rfl
  | cons r rs ih =>
    intro lp h
    rw [filterLp] at h
    rcases hg : pyGetAttr r (strOf "logprobs") with e | v
    · simp [hg] at h
    · simp only [hg] at h
      rcases hf : filterLp rs with e | rest
      · simp [hf] at h
      · simp only [hf, Except.ok.injEq] at h
        cases r with
        | obj fields =>
          have hv : v = dictGet fields (strOf "logprobs") := by
            simp [pyGetAttr] at hg
            exact hg.symm
          rw [List.filter_cons, ← ih rest hf, ← h, hv]
          simp only [keepLp]
        | null => simp [pyGetAttr] at hg
        | bool b => simp [pyGetAttr] at hg
        | num n => simp [pyGetAttr] at hg
        | str s => simp [pyGetAttr] at hg
        | arr xs => simp [pyGetAttr] at hg

/-- How one record relates to the one observable event the render loop
produces for it: the event is about that record; if the record is a dict
whose content comes out empty, the event is exactly the
`Skipping record ... — empty content.` stderr diagnostic; if the content is
non-empty, the event is a displayed or saved figure. -/
def renderedAs (r : JValue) (e : VizEvent) : Prop :=
  VizEvent.source e = r
  ∧ ∀ (fields : List (List Char × JValue)) (content : JValue),
      r = JValue.obj fields → contentOf r = Except.ok content →
      ((content.truthy = false → e = .skippedEmpty r (skipDiag fields))
       ∧ (content.truthy = true →
            e = .shown r ∨ ∃ p line, e = .saved r p line))

theorem renderEntry_ok_cases (lp : List JValue) (output : Option OutPath)
    (q : JValue) (ev : VizEvent)
    (h : renderEntry lp output q = .ok ev) : renderedAs q ev := by
  unfold renderEntry at h
  rcases hc : contentOf q with e | content
  · simp [hc] at h
  · simp only [hc] at h
    by_cases ht : content.truthy = false
    · rw [if_pos ht] at h
      cases q with
      | obj fields =>
        simp only [Except.ok.injEq] at h
        subst h
        refine ⟨rfl, ?_⟩
        intro fields2 content2 hq hc2
        have hf2 : fields2 = fields := by
          simp only [JValue.obj.injEq] at hq
          exact hq.symm
        have hcnt : content2 = content := by
          rw [hc] at hc2
          simp only [Except.ok.injEq] at hc2
          exact hc2.symm
        subst hf2
        subst hcnt
        exact ⟨fun _ => rfl, fun htr => absurd htr (by simp [ht])⟩
      | null => cases h
      | bool b => cases h
      | num n => cases h
      | str s => cases h
      | arr xs => cases h
    · rw [if_neg ht] at h
      by_cases hcc : checkContent content = true
      · rw [if_pos hcc] at h
        have hmain : ∀ (fields2 : List (List Char × JValue)) (content2 : JValue),
            q = JValue.obj fields2 → contentOf q = Except.ok content2 →
            ((content2.truthy = false → ev = .skippedEmpty q (skipDiag fields2))
             ∧ (content2.truthy = true →
                  ev = .shown q ∨ ∃ p line, ev = .saved q p line)) := by
          intro fields2 content2 _ hc2
          have hcnt : content2 = content := by
            rw [hc] at hc2
            simp only [Except.ok.injEq] at hc2
            exact hc2.symm
          subst hcnt
          refine ⟨fun hfalse => absurd hfalse ht, fun _ => ?_⟩
          cases output with
          | none =>
            simp only [Except.ok.injEq] at h
            exact Or.inl h.symm
          | some o =>
            simp only [Except.ok.injEq] at h
            exact Or.inr ⟨_, _, h.symm⟩
        refine ⟨?_, hmain⟩
        cases output with
        | none =>
          simp only [Except.ok.injEq] at h
          rw [← h]
          rfl
        | some o =>
          simp only [Except.ok.injEq] at h
          rw [← h]
          rfl
      · rw [if_neg hcc] at h
        cases h

theorem renderLoop_forall₂ (lp : List JValue) (output : Option OutPath) :
    ∀ (rs : List JValue) (evs : List VizEvent),
    renderLoop lp output rs = .ok evs → List.Forall₂ renderedAs rs evs := by
  intro rs
  induction rs with
  | nil =>
    intro evs h
    rw [renderLoop] at h
    cases h
    exact List.Forall₂.nil
  | cons q qs ih =>
    intro evs h
    rw [renderLoop] at h
    rcases he : renderEntry lp output q with e | ev
    · rw [he] at h; cases h
    · rw [he] at h
      rcases hl : renderLoop lp output qs with e | evs2
      · rw [hl] at h; cases h
      · rw [hl] at h
        cases h
        exact List.Forall₂.cons (renderEntry_ok_cases lp output q ev he) (ih evs2 hl)

/-- C5 (amended): when `render` completes, the records whose `logprobs`
field is missing or falsy are dropped silently — the events correspond
one-to-one, in order, to the kept records only, so a dropped record leaves
no diagnostic; each kept record whose content comes out empty produces
exactly the one `Skipping record ... — empty content.` stderr diagnostic and
is not rendered; every other kept record is rendered (displayed or saved). -/
theorem c5_render_diagnostics (records : List JValue) (output : Option OutPath)
    (evs : List VizEvent)
    (hrun : render records output = Except.ok (.done evs)) :
    ∃ lp, filterLp records = Except.ok lp
      ∧ lp = records.filter keepLp
      ∧ List.Forall₂ renderedAs lp evs := by
  obtain ⟨lp, hf, hl⟩ := render_done records output evs hrun
  exact ⟨lp, hf, filterLp_ok_filter records lp hf, renderLoop_forall₂ lp output lp evs hl⟩

def c5NoLp : JValue :=
  .obj [(strOf "prompt_id", .str (strOf "no-lp")),
        (strOf "response", .str (strOf "some text"))]

def c5Empty : JValue :=
  .obj [(strOf "prompt_id", .str (strOf "empty")),
        (strOf "logprobs", .obj [(strOf "content", .arr [])])]

def c5Alt : JValue :=
  .obj [(strOf "token", .str (strOf "y")), (strOf "logprob", .num (-2))]

def c5Pos : JValue :=
  .obj [(strOf "top_logprobs", .arr [c5Alt]), (strOf "token", .str (strOf "y"))]

def c5Good : JValue :=
  .obj [(strOf "prompt_id", .str (strOf "good")),
        (strOf "logprobs", .obj [(strOf "content", .arr [c5Pos])])]

/-- A record with no log-probability data (`c5NoLp`) is skipped without any
diagnostic — the completed run's only event is the rendering of the other
record — and a record that does carry a (truthy) `logprobs` dict whose
content is empty (`c5Empty`) is not rendered: it yields only the
empty-content stderr diagnostic. -/
theorem c5_counterexample :
    render [c5NoLp, c5Good] none = .ok (.done [.shown c5Good])
    ∧ render [c5Empty, c5Good] none
        = .ok (.done [.skippedEmpty c5Empty
            (strOf "Skipping record empty — empty content."), .shown c5Good]) := by
  constructor
  · decide
  · decide

theorem c5_render_diagnostics_witness :
    ∃ lp, filterLp [c5NoLp, c5Empty, c5Good] = Except.ok lp
      ∧ lp = [c5NoLp, c5Empty, c5Good].filter keepLp
      ∧ List.Forall₂ renderedAs lp
          [VizEvent.skippedEmpty c5Empty
              (strOf "Skipping record empty — empty content."),
           VizEvent.shown c5Good] :=
  c5_render_diagnostics [c5NoLp, c5Empty, c5Good] none
    [VizEvent.skippedEmpty c5Empty
        (strOf "Skipping record empty — empty content."),
     VizEvent.shown c5Good]
    (by decide)
